import Mathlib

/-!
Verification of the Field Extraction & Resilient Call Engine of the
smart-invoice-infra repository.

The Python sources embedded here (shallowly) are:
  * `src/lambda/inference_handler/model_helpers.py` — the rule-based field
    extractors, the currency/date normalizers and the rule/AI reconciler;
  * `src/lambda/inference_handler/retry_handler.py` — the retry wrapper, the
    AWS error classifier and the circuit breaker;
  * `src/lambda/inference_handler/error_handler.py` — the error taxonomy.

Modelling conventions:
  * Python strings are `String`/`List Char`; only ASCII whitespace and ASCII
    case folding are modelled (the repository's inputs are ASCII).
  * Python `float` values are modelled as exact decimals (`Dec`, an integer
    mantissa over a power of ten, with meaning `Dec.toQ` in `ℚ`): the decimal
    literals accepted by `float(...)` are parsed exactly; the binary rounding
    of IEEE doubles, `inf` and `nan` are outside the model (the specification
    grants floating-point tolerance where this matters).
  * Python dictionaries are association lists with insertion-order update
    semantics (`dictSet` overwrites in place, appends fresh keys at the end);
    CPython dict keys are unique, which appears as `Nodup` hypotheses.
  * `re` patterns are compiled to a small backtracking regex engine (`Rgx`)
    with ordered alternation and greedy, backtracking quantifiers — the same
    leftmost semantics as CPython's `re`; `re.IGNORECASE` is ASCII case
    folding.  The engine is fuelled; the fuel bound is far above the
    backtracking depth any of the embedded patterns can reach.
  * `datetime.strptime`/`strftime` follow CPython's `_strptime.py` table:
    `%m` is `1[0-2]|0[1-9]|[1-9]`, `%d` is `3[0-1]|[1-2]\d|0[1-9]|[1-9]| [1-9]`,
    `%Y` is exactly four digits, `%y` is exactly two digits with the 69-pivot
    century rule, month names are matched case-insensitively, whitespace in a
    format matches one-or-more whitespace, the whole input must be consumed,
    and the resulting date is validated against the real calendar.
    `strftime('%Y-%m-%d')` zero-pads month and day but (as on the glibc
    platforms the Lambda code runs on) does not pad the year.
  * `time.sleep` in the retry loop only delays and is elided; a wrapped
    operation is an attempt-indexed outcome function `ℕ → PyResult α`.
-/

/-! ## Python string primitives -/

/-- ASCII whitespace, the characters matched by `\s` (and stripped by
`str.strip`) that can actually occur in the modelled inputs. -/
def isPySpace (c : Char) : Bool :=
  c = ' ' || c = '\t' || c = '\n' || c = '\x0d' || c = '\x0b' || c = '\x0c'

/-- ASCII lowering, the effect of `str.lower` / `re.IGNORECASE` on ASCII. -/
def lowerC (c : Char) : Char := c.toLower

/-- Case-insensitive character equality (ASCII). -/
def charCIEq (a b : Char) : Bool := lowerC a = lowerC b

/-- Model of `str.lower` on a character list. -/
def lowerL (l : List Char) : List Char := l.map lowerC

/-- Strip ASCII whitespace from both ends of a character list (`str.strip`). -/
def pyStripL (l : List Char) : List Char :=
  ((l.dropWhile isPySpace).reverse.dropWhile isPySpace).reverse

/-- Model of `str.strip` on a `String`. -/
def pyStrip (s : String) : String := String.mk (pyStripL s.data)

/-- Does `n` occur at the head of `h` (exact characters)? -/
def leadsWith : List Char → List Char → Bool
  | [], _ => true
  | _ :: _, [] => false
  | n :: ns, h :: hs => n = h && leadsWith ns hs

/-- Does `n` occur at the head of `h`, comparing ASCII case-insensitively? -/
def ciLeads : List Char → List Char → Bool
  | [], _ => true
  | _ :: _, [] => false
  | n :: ns, h :: hs => charCIEq n h && leadsWith (lowerL ns) (lowerL hs)

/-- Python's substring test `n in h` on character lists. -/
def occursIn (n : List Char) : List Char → Bool
  | [] => leadsWith n []
  | c :: t => leadsWith n (c :: t) || occursIn n t

/-- Model of `str.split('\n')`: split at every separator, keeping empty pieces
(`"".split('\n') == ['']`). -/
def splitOnC (sep : Char) : List Char → List (List Char)
  | [] => [[]]
  | c :: r =>
      let rest := splitOnC sep r
      if c = sep then [] :: rest
      else
        match rest with
        | h :: t => (c :: h) :: t
        | [] => [[c]]

/-- Numeric value of a digit character. -/
def digitVal (c : Char) : ℕ := c.toNat - 48

/-- The character for the digit `d < 10`. -/
def digitChar10 (d : ℕ) : Char := Char.ofNat (48 + d)

/-- Fuelled digit expansion (structural recursion so the kernel evaluates it;
`natDigits` supplies ample fuel and `natDigits_eq` recovers the equation). -/
def natDigitsF : ℕ → ℕ → List Char
  | 0, _ => []
  | fuel + 1, n =>
      if n < 10 then [digitChar10 n]
      else natDigitsF fuel (n / 10) ++ [digitChar10 (n % 10)]

/-- Decimal digits of a natural number, most significant first. -/
def natDigits (n : ℕ) : List Char := natDigitsF (n + 1) n

/-- Powers of ten (structural, kernel-evaluable). -/
def pow10 : ℕ → ℕ
  | 0 => 1
  | e + 1 => 10 * pow10 e

/-! ## Exact decimal numbers

Every numeric value this code manipulates is produced by Python's `float(...)`
from a decimal literal and is then only copied and compared, so values are
modelled as exact decimals `m / 10^e`.  The representation is executable
(integer arithmetic only); `Dec.toQ` gives its meaning in `ℚ` for the
specification-level statements. -/

structure Dec where
  m : ℤ
  e : ℕ
deriving DecidableEq

/-- The rational value of a decimal. -/
def Dec.toQ (d : Dec) : ℚ := (d.m : ℚ) / (pow10 d.e : ℚ)

/-- Strict order on decimals (exactly the float comparison). -/
def Dec.ltB (a b : Dec) : Bool := a.m * (pow10 b.e : ℤ) < b.m * (pow10 a.e : ℤ)

/-- Model of `0 < d` (float truthiness plus positivity checks in the code). -/
def Dec.posB (d : Dec) : Bool := 0 < d.m

/-- Model of `0 ≤ d`. -/
def Dec.nonnegB (d : Dec) : Bool := 0 ≤ d.m

/-- Model of `1 ≤ d`. -/
def Dec.oneLeB (d : Dec) : Bool := (pow10 d.e : ℤ) ≤ d.m

/-- Model of `d ≠ 0`, Python truthiness of a float. -/
def Dec.neZeroB (d : Dec) : Bool := d.m ≠ 0

/-- Binary `max` as Python's `max` computes it (keeps the left argument on
ties, so `max` of a list returns its first maximal element). -/
def Dec.maxP (a b : Dec) : Dec := if Dec.ltB a b then b else a

/-- The decimal `n / 1`. -/
def Dec.ofNat (n : ℕ) : Dec := ⟨n, 0⟩

/-! ## The decimal fragment of Python's `float(...)`

`float` accepts `[sign] (digitpart ["." [digitpart]] | "." digitpart)
[("e"|"E") [sign] digitpart]` where `digitpart` is digits with single
underscores strictly between digits.  The value is modelled exactly in `ℚ`. -/

/-- Leading optional sign; returns whether it is negative, and the rest. -/
def pySign (s : List Char) : Bool × List Char :=
  match s with
  | c :: r => if c = '+' then (false, r) else if c = '-' then (true, r) else (false, s)
  | [] => (false, [])

/-- Take the maximal leading run of digits and underscores. -/
def takeDU : List Char → List Char × List Char
  | [] => ([], [])
  | c :: r =>
      if c.isDigit || c = '_' then
        let p := takeDU r
        (c :: p.1, p.2)
      else ([], c :: r)

/-- Every underscore is immediately followed by a digit (so in particular no
trailing underscore and no doubled underscore). -/
def dpOk : List Char → Bool
  | [] => true
  | c :: r =>
      if c = '_' then
        match r with
        | c2 :: _ => c2.isDigit && dpOk r
        | [] => false
      else dpOk r

/-- A valid CPython `digitpart`: nonempty, starts with a digit, and every
underscore sits between digits. -/
def validDP (l : List Char) : Bool :=
  match l with
  | [] => false
  | c :: _ => c.isDigit && dpOk l

/-- Value of a digit/underscore run, ignoring underscores. -/
def valueDU (l : List Char) : ℕ :=
  l.foldl (fun a c => if c.isDigit then 10 * a + digitVal c else a) 0

/-- Number of digit characters in a run. -/
def digitCount (l : List Char) : ℕ := (l.filter Char.isDigit).length

/-- Optional exponent suffix of a float literal, applied to mantissa `man`
(negative sign `neg` still pending). -/
def pyExpo (neg : Bool) (man : Dec) (r : List Char) : Option Dec :=
  match r with
  | [] => some (if neg then ⟨-man.m, man.e⟩ else man)
  | e :: r1 =>
      if e = 'e' || e = 'E' then
        let se := pySign r1
        let ep := takeDU se.2
        if ep.1.isEmpty || !validDP ep.1 || !ep.2.isEmpty then none
        else
          let ev := valueDU ep.1
          let scaled : Dec := if se.1 then ⟨man.m, man.e + ev⟩ else ⟨man.m * (pow10 ev : ℤ), man.e⟩
          some (if neg then ⟨-scaled.m, scaled.e⟩ else scaled)
      else none

/-- The decimal fragment of Python's `float(cleaned)`; `none` models a
`ValueError`. -/
def pyFloat (s : List Char) : Option Dec :=
  let sg := pySign s
  let ip := takeDU sg.2
  match ip.2 with
  | '.' :: r2 =>
      let fp := takeDU r2
      if (ip.1.isEmpty && fp.1.isEmpty) || !(ip.1.isEmpty || validDP ip.1)
          || !(fp.1.isEmpty || validDP fp.1) then none
      else
        pyExpo sg.1 ⟨valueDU ip.1 * (pow10 (digitCount fp.1) : ℤ) + valueDU fp.1,
                     digitCount fp.1⟩ fp.2
  | _ =>
      if ip.1.isEmpty || !validDP ip.1 then none
      else pyExpo sg.1 ⟨valueDU ip.1, 0⟩ ip.2

/-! ## `parse_currency` (model_helpers.py lines 307-318) -/

/-- Characters removed by `re.sub(r'[$€£¥,\s]', '', value)`. -/
def isCurrencyStrip (c : Char) : Bool :=
  c = '$' || c = '€' || c = '£' || c = '¥' || c = ',' || isPySpace c

/-- Model of `parse_currency`: strip currency symbols, commas and whitespace, then
parse the remainder with `float`; `None` on empty input or a `ValueError`. -/
def parse_currency (v : String) : Option Dec :=
  if v = "" then none
  else pyFloat (v.data.filter (fun c => !isCurrencyStrip c))

/-- Group reversed digits in threes with commas (helper for the round-trip
format of §8 of the spec). -/
def groupRev : List Char → List Char
  | a :: b :: c :: r =>
      if r.isEmpty then [a, b, c] else a :: b :: c :: ',' :: groupRev r
  | l => l

/-- The thousands-grouped decimal rendering of `n`. -/
def thousandsGrouped (n : ℕ) : List Char :=
  (groupRev (natDigits n).reverse).reverse

/-- Model of `"$" + thousands-grouped(n) + ".00"`, the shape quantified over by the
`parse_currency` round-trip property. -/
def formatUSD (n : ℕ) : String :=
  String.mk ('$' :: thousandsGrouped n ++ ['.', '0', '0'])

/-! ## `parse_date` (model_helpers.py lines 320-342) via CPython `strptime`

The twelve formats tried in order are
`%m/%d/%Y, %d/%m/%Y, %Y-%m-%d, %Y/%m/%d, %m-%d-%Y, %d-%m-%Y, %B %d, %Y,
%b %d, %Y, %d %B %Y, %d %b %Y, %m/%d/%y, %d/%m/%y`. -/

/-- One directive or literal of a strptime format string. -/
inductive DTok
  | tm | td | tY | ty | tB | tb
  | tl (c : Char)
  | tws
deriving DecidableEq

/-- Partially assembled date fields while matching a format. -/
structure DateParts where
  y : Option ℕ
  m : Option ℕ
  d : Option ℕ
deriving DecidableEq

/-- Full month names with their month numbers, in the order CPython's
length-descending stable sort puts them in the generated alternation. -/
def monthsFull : List (List Char × ℕ) :=
  [("september".data, 9), ("february".data, 2), ("november".data, 11),
   ("december".data, 12), ("january".data, 1), ("october".data, 10),
   ("august".data, 8), ("march".data, 3), ("april".data, 4),
   ("june".data, 6), ("july".data, 7), ("may".data, 5)]

/-- Abbreviated month names (all of length three, original order). -/
def monthsAbbr : List (List Char × ℕ) :=
  [("jan".data, 1), ("feb".data, 2), ("mar".data, 3), ("apr".data, 4),
   ("may".data, 5), ("jun".data, 6), ("jul".data, 7), ("aug".data, 8),
   ("sep".data, 9), ("oct".data, 10), ("nov".data, 11), ("dec".data, 12)]

/-- Length of the leading whitespace run. -/
def wsRun : List Char → ℕ
  | [] => 0
  | c :: r => if isPySpace c then wsRun r + 1 else 0

/-- First-success traversal of a list (ordered alternation). -/
def firstSome (l : List α) (f : α → Option β) : Option β :=
  match l with
  | [] => none
  | x :: r =>
      match f x with
      | some b => some b
      | none => firstSome r f

/-- The ordered ways token `t` can consume a prefix of `s`, updating the
date parts — exactly the alternation branches of CPython's `_strptime`
regular expressions (so backtracking tries them in this order). -/
def tokAlts (t : DTok) (p : DateParts) (s : List Char) : List (DateParts × List Char) :=
  match t with
  | .tm =>
      (match s with
       | c1 :: c2 :: r =>
           (if c1 = '1' && '0' ≤ c2 && c2 ≤ '2' then
              [({ p with m := some (10 + digitVal c2) }, r)] else []) ++
           (if c1 = '0' && '1' ≤ c2 && c2 ≤ '9' then
              [({ p with m := some (digitVal c2) }, r)] else []) ++
           (if '1' ≤ c1 && c1 ≤ '9' then
              [({ p with m := some (digitVal c1) }, c2 :: r)] else [])
       | [c1] =>
           if '1' ≤ c1 && c1 ≤ '9' then [({ p with m := some (digitVal c1) }, [])] else []
       | [] => [])
  | .td =>
      (match s with
       | c1 :: c2 :: r =>
           (if c1 = '3' && '0' ≤ c2 && c2 ≤ '1' then
              [({ p with d := some (30 + digitVal c2) }, r)] else []) ++
           (if '1' ≤ c1 && c1 ≤ '2' && c2.isDigit then
              [({ p with d := some (10 * digitVal c1 + digitVal c2) }, r)] else []) ++
           (if c1 = '0' && '1' ≤ c2 && c2 ≤ '9' then
              [({ p with d := some (digitVal c2) }, r)] else []) ++
           (if '1' ≤ c1 && c1 ≤ '9' then
              [({ p with d := some (digitVal c1) }, c2 :: r)] else []) ++
           (if c1 = ' ' && '1' ≤ c2 && c2 ≤ '9' then
              [({ p with d := some (digitVal c2) }, r)] else [])
       | [c1] =>
           if '1' ≤ c1 && c1 ≤ '9' then [({ p with d := some (digitVal c1) }, [])] else []
       | [] => [])
  | .tY =>
      (match s with
       | c1 :: c2 :: c3 :: c4 :: r =>
           if c1.isDigit && c2.isDigit && c3.isDigit && c4.isDigit then
             [({ p with y := some (1000 * digitVal c1 + 100 * digitVal c2 +
                                   10 * digitVal c3 + digitVal c4) }, r)]
           else []
       | _ => [])
  | .ty =>
      (match s with
       | c1 :: c2 :: r =>
           if c1.isDigit && c2.isDigit then
             let v := 10 * digitVal c1 + digitVal c2
             [({ p with y := some (if v ≤ 68 then 2000 + v else 1900 + v) }, r)]
           else []
       | _ => [])
  | .tB =>
      monthsFull.foldr
        (fun nm acc =>
          if ciLeads nm.1 s then ({ p with m := some nm.2 }, s.drop nm.1.length) :: acc
          else acc) []
  | .tb =>
      monthsAbbr.foldr
        (fun nm acc =>
          if ciLeads nm.1 s then ({ p with m := some nm.2 }, s.drop nm.1.length) :: acc
          else acc) []
  | .tl c =>
      (match s with
       | c' :: r => if charCIEq c' c then [(p, r)] else []
       | [] => [])
  | .tws =>
      let k := wsRun s
      (List.range k).map fun i => (p, s.drop (k - i))

/-- Match a token list against the whole input (CPython raises on
"unconverted data"), with ordered backtracking across token alternatives. -/
def matchToks : List DTok → DateParts → List Char → Option DateParts
  | [], p, s => if s.isEmpty then some p else none
  | t :: ts, p, s => firstSome (tokAlts t p s) fun a => matchToks ts a.1 a.2

/-- Gregorian leap year. -/
def isLeap (y : ℕ) : Bool := y % 4 = 0 && (y % 100 ≠ 0 || y % 400 = 0)

/-- Days in a month (`datetime.date` validation). -/
def daysInMonth (y m : ℕ) : ℕ :=
  if m = 2 then (if isLeap y then 29 else 28)
  else if m = 4 || m = 6 || m = 9 || m = 11 then 30
  else 31

/-- Validation performed by constructing `datetime.date(year, month, day)`:
`ValueError` (here `none`) unless the triple is a real calendar date with
`MINYEAR ≤ year ≤ MAXYEAR`. -/
def validateParts (p : DateParts) : Option (ℕ × ℕ × ℕ) :=
  match p.y, p.m, p.d with
  | some y, some m, some d =>
      if 1 ≤ y && y ≤ 9999 && 1 ≤ m && m ≤ 12 && 1 ≤ d && d ≤ daysInMonth y m
      then some (y, m, d) else none
  | _, _, _ => none

/-- Model of `datetime.strptime(s, fmt)` restricted to the date fields, followed by
calendar validation; `none` models `ValueError`. -/
def strptimeF (toks : List DTok) (s : List Char) : Option (ℕ × ℕ × ℕ) :=
  (matchToks toks ⟨none, none, none⟩ s).bind validateParts

def fmtMDY : List DTok := [.tm, .tl '/', .td, .tl '/', .tY]
def fmtDMY : List DTok := [.td, .tl '/', .tm, .tl '/', .tY]
def fmtYMD : List DTok := [.tY, .tl '-', .tm, .tl '-', .td]
def fmtYMDs : List DTok := [.tY, .tl '/', .tm, .tl '/', .td]
def fmtMDYd : List DTok := [.tm, .tl '-', .td, .tl '-', .tY]
def fmtDMYd : List DTok := [.td, .tl '-', .tm, .tl '-', .tY]
def fmtBdY : List DTok := [.tB, .tws, .td, .tl ',', .tws, .tY]
def fmtbdY : List DTok := [.tb, .tws, .td, .tl ',', .tws, .tY]
def fmtdBY : List DTok := [.td, .tws, .tB, .tws, .tY]
def fmtdbY : List DTok := [.td, .tws, .tb, .tws, .tY]
def fmtMDy : List DTok := [.tm, .tl '/', .td, .tl '/', .ty]
def fmtDMy : List DTok := [.td, .tl '/', .tm, .tl '/', .ty]

/-- The format list of `parse_date`, in source order. -/
def dateFormats : List (List DTok) :=
  [fmtMDY, fmtDMY, fmtYMD, fmtYMDs, fmtMDYd, fmtDMYd,
   fmtBdY, fmtbdY, fmtdBY, fmtdbY, fmtMDy, fmtDMy]

/-- Two-digit zero-padded rendering (strftime `%m`, `%d`). -/
def pad2 (n : ℕ) : List Char :=
  if n < 10 then '0' :: natDigits n else natDigits n

/-- Model of `parsed.strftime('%Y-%m-%d')`: month and day zero-padded to two digits,
year unpadded (glibc behaviour, years below 1000 render short). -/
def isoFmt (y m d : ℕ) : String :=
  String.mk (natDigits y ++ '-' :: (pad2 m ++ '-' :: pad2 d))

/-- Model of `parse_date`: `None` on falsy input, else strip and try each format in
order, returning the first successful parse rendered as ISO. -/
def parse_date (s : String) : Option String :=
  if s = "" then none
  else
    (firstSome dateFormats fun f => strptimeF f (pyStripL s.data)).map
      fun r => isoFmt r.1 r.2.1 r.2.2

/-! ## A small backtracking regex engine

Just the constructs the embedded patterns use: literals (ASCII
case-insensitive, as all the relevant patterns are compiled with
`re.IGNORECASE` and the rest contain no letters), character classes, ordered
alternation, concatenation and a greedy star.  Bounded repetitions are
unrolled with `rOpt`.  `rgxRun` is CPython's backtracking search in
continuation-passing style: alternatives are tried left to right, quantifiers
prefer the longer match, and the first overall success wins. -/

inductive Rgx
  | eps
  | lit (c : Char)
  | cls (p : Char → Bool)
  | cat (a b : Rgx)
  | alt (a b : Rgx)
  | star (a : Rgx)

/-- Size of a pattern, used only for the fuel bound. -/
def rgxSize : Rgx → ℕ
  | .eps => 1
  | .lit _ => 1
  | .cls _ => 1
  | .cat a b => rgxSize a + rgxSize b + 1
  | .alt a b => rgxSize a + rgxSize b + 1
  | .star a => rgxSize a + 1

/-- Backtracking matcher: try to match `r` at the head of `s` and run the
continuation `k` on the remainder; on failure of a branch, backtrack. -/
def rgxRun {β : Type} : ℕ → Rgx → List Char → (List Char → Option β) → Option β
  | 0, _, _, _ => none
  | fuel + 1, r, s, k =>
      match r with
      | .eps => k s
      | .lit c =>
          match s with
          | [] => none
          | a :: rest => if charCIEq a c then k rest else none
      | .cls p =>
          match s with
          | [] => none
          | a :: rest => if p a then k rest else none
      | .cat a b => rgxRun fuel a s fun s1 => rgxRun fuel b s1 k
      | .alt a b =>
          match rgxRun fuel a s k with
          | some v => some v
          | none => rgxRun fuel b s k
      | .star a =>
          match rgxRun fuel a s
              (fun s1 => if s1.length < s.length then rgxRun fuel (.star a) s1 k else none) with
          | some v => some v
          | none => k s

/-- Fuel that the embedded patterns can never exhaust (every star body
consumes at least one character, so the continuation nesting is bounded by
pattern size times input length). -/
def rgxFuel (r : Rgx) (s : List Char) : ℕ := (rgxSize r + 2) * (s.length + 2) + 2

/-- Anchored match of `pre` followed by a trailing capture group `cap` (all
the embedded capturing patterns capture a suffix): returns the captured
characters and the remainder after the whole match. -/
def matchCap (pre cap : Rgx) (s : List Char) : Option (List Char × List Char) :=
  let fl := rgxFuel (.cat pre cap) s
  rgxRun fl pre s fun s1 =>
    rgxRun fl cap s1 fun s2 => some (s1.take (s1.length - s2.length), s2)

/-- Model of `re.findall` for a pattern `pre(cap)`: scan left to right, non-overlapping,
collecting group 1 of every match. -/
def findallAux (pre cap : Rgx) : ℕ → List Char → List (List Char)
  | 0, _ => []
  | n + 1, s =>
      match matchCap pre cap s with
      | some g =>
          g.1 :: (if g.2.length < s.length then findallAux pre cap n g.2
                  else match s with
                       | [] => []
                       | _ :: t => findallAux pre cap n t)
      | none =>
          match s with
          | [] => []
          | _ :: t => findallAux pre cap n t

def findall (pre cap : Rgx) (s : List Char) : List (List Char) :=
  findallAux pre cap (s.length + 1) s

/-- Model of `re.sub(pattern, '', s)`: delete every non-overlapping match. -/
def subDelAux (pat : Rgx) : ℕ → List Char → List Char
  | 0, s => s
  | n + 1, s =>
      match matchCap pat .eps s with
      | some g =>
          if g.2.length < s.length then subDelAux pat n g.2
          else match s with
               | [] => []
               | c :: t => c :: subDelAux pat n t
      | none =>
          match s with
          | [] => []
          | c :: t => c :: subDelAux pat n t

def subDel (pat : Rgx) (s : List Char) : List Char := subDelAux pat (s.length + 1) s

/-- Literal word, matched case-insensitively. -/
def rgxStr (w : String) : Rgx := (w.data.map Rgx.lit).foldr Rgx.cat .eps

def rOpt (a : Rgx) : Rgx := .alt a .eps

def rPlus (a : Rgx) : Rgx := .cat a (.star a)

def rDigit : Rgx := .cls Char.isDigit

/-- Model of `[:\s]`. -/
def rColonWS : Rgx := .cls fun c => c = ':' || isPySpace c

/-- Model of `\s`. -/
def rWS : Rgx := .cls isPySpace

/-- Model of `\d{1,3}`. -/
def rD13 : Rgx := .cat rDigit (rOpt (.cat rDigit (rOpt rDigit)))

/-- Model of `\d{0,2}`. -/
def rD02 : Rgx := rOpt (.cat rDigit (rOpt rDigit))

/-- The currency-shaped capture `\d{1,3}(?:,\d{3})*\.?\d{0,2}`. -/
def rNum : Rgx :=
  .cat rD13
    (.cat (.star (.cat (.lit ',') (.cat rDigit (.cat rDigit rDigit))))
      (.cat (rOpt (.lit '.')) rD02))

/-- Model of `kw[:\s]+\$?` — the prefix of the keyword amount patterns. -/
def amountPre (kw : String) : Rgx :=
  .cat (rgxStr kw) (.cat (rPlus rColonWS) (rOpt (.lit '$')))

/-- The five amount patterns of `extract_amount`, as (prefix, capture). -/
def amountPatterns : List (Rgx × Rgx) :=
  [(amountPre "total", rNum), (amountPre "amount", rNum), (amountPre "balance", rNum),
   (amountPre "due", rNum), (.lit '$', rNum)]

/-- The four tax patterns of `extract_tax_amount`. -/
def taxPatterns : List (Rgx × Rgx) :=
  [(amountPre "tax", rNum), (amountPre "vat", rNum), (amountPre "gst", rNum),
   (amountPre "sales tax", rNum)]

/-- Model of `[A-Z0-9\-]` under `re.IGNORECASE`. -/
def rAlnumHyphen : Rgx :=
  .cls fun c => ('A' ≤ c && c ≤ 'Z') || ('a' ≤ c && c ≤ 'z') || c.isDigit || c = '-'

/-- Model of `kw\s*#?\s*:?\s*` — prefix of the invoice-number patterns. -/
def invNumPre (kw : String) : Rgx :=
  .cat (rgxStr kw)
    (.cat (.star rWS) (.cat (rOpt (.lit '#')) (.cat (.star rWS) (.cat (rOpt (.lit ':')) (.star rWS)))))

/-- The four invoice-number patterns (prefix, capture). -/
def invoicePatterns : List (Rgx × Rgx) :=
  [(invNumPre "invoice", rPlus rAlnumHyphen),
   (invNumPre "inv", rPlus rAlnumHyphen),
   (.cat (.lit '#') (.star rWS), .cat rAlnumHyphen (.cat rAlnumHyphen (rPlus rAlnumHyphen))),
   (.cat (rgxStr "ref") (.cat (.star rWS) (.cat (rOpt (.lit ':')) (.star rWS))), rPlus rAlnumHyphen)]

/-- The slash-or-dash separator class of the date patterns. -/
def rDateSep : Rgx := .cls fun c => c = '/' || c = '-'

/-- Model of `\d{1,2}`. -/
def rD12 : Rgx := .cat rDigit (rOpt rDigit)

/-- Model of `\d{2,4}`. -/
def rD24 : Rgx := .cat rDigit (.cat rDigit (.cat (rOpt rDigit) (rOpt rDigit)))

/-- Model of `\d{4}`. -/
def rD4 : Rgx := .cat rDigit (.cat rDigit (.cat rDigit rDigit))

/-- Model of `(?:Jan|Feb|Mar|Apr|May|Jun|Jul|Aug|Sep|Oct|Nov|Dec)`. -/
def rMonthAbbr : Rgx :=
  [rgxStr "Jan", rgxStr "Feb", rgxStr "Mar", rgxStr "Apr", rgxStr "May", rgxStr "Jun",
   rgxStr "Jul", rgxStr "Aug", rgxStr "Sep", rgxStr "Oct",
   rgxStr "Nov"].foldr Rgx.alt (rgxStr "Dec")

/-- Model of `[a-z]*` under `re.IGNORECASE`. -/
def rAZStar : Rgx := .star (.cls fun c => ('a' ≤ c && c ≤ 'z') || ('A' ≤ c && c ≤ 'Z'))

/-- The four date-shape patterns of `extract_date` (whole match captured). -/
def datePatterns : List Rgx :=
  [.cat rD12 (.cat rDateSep (.cat rD12 (.cat rDateSep rD24))),
   .cat rD4 (.cat rDateSep (.cat rD12 (.cat rDateSep rD12))),
   .cat rMonthAbbr (.cat rAZStar (.cat (.lit ' ')
     (.cat rD12 (.cat (rOpt (.lit ',')) (.cat (.lit ' ') rD4))))),
   .cat rD12 (.cat (.lit ' ') (.cat rMonthAbbr (.cat rAZStar (.cat (.lit ' ') rD4))))]

/-! ## Field extractors (model_helpers.py lines 130-305) -/

/-- Model of `re.sub(r'[^\w\-]', '', v)` on ASCII: keep word characters and hyphens. -/
def cleanInvoice (v : List Char) : List Char :=
  v.filter fun c =>
    ('A' ≤ c && c ≤ 'Z') || ('a' ≤ c && c ≤ 'z') || c.isDigit || c = '_' || c = '-'

/-- Model of `\w` on ASCII. -/
def isWordChar (c : Char) : Bool :=
  ('A' ≤ c && c ≤ 'Z') || ('a' ≤ c && c ≤ 'z') || c.isDigit || c = '_'

def amountKeys : List String := ["total", "amount", "balance", "due", "grand total", "amount due"]

def dateKeys : List String := ["date", "invoice date", "bill date", "issued", "created"]

def invoiceKeys : List String := ["invoice", "invoice number", "number", "ref", "reference", "inv"]

def vendorKeys : List String := ["vendor", "company", "from", "bill from", "seller", "billed by"]

def vendorMarkers : List String := ["inc", "llc", "corp", "ltd", "company", "co."]

def vendorSkips : List String := ["invoice", "bill", "receipt", "date", "total"]

def startsWithAny (l : List Char) (pres : List String) : Bool :=
  pres.any fun p => leadsWith p.data l

def containsAny (l : List Char) (subs : List String) : Bool :=
  subs.any fun p => occursIn p.data l

/-- The key-value phase of `extract_amount`: first key whose lowered name
contains a lowered amount keyword and whose value parses to a positive
amount. -/
def kvpAmount (kvp : List (String × String)) : Option Dec :=
  firstSome amountKeys fun key =>
    firstSome kvp fun e =>
      if occursIn (lowerL key.data) (lowerL e.1.data) then
        match parse_currency e.2 with
        | some a => if a.neZeroB && a.posB then some a else none
        | none => none
      else none

/-- All positive amounts found by the five regex patterns, in pattern order
then text order (`found_amounts`). -/
def foundAmounts (text : List Char) : List Dec :=
  (amountPatterns.map fun p =>
    (findall p.1 p.2 text).filterMap fun g =>
      match parse_currency (String.mk g) with
      | some a => if a.neZeroB && a.posB then some a else none
      | none => none).flatten

/-- Python's `max` over a nonempty list (first maximal element). -/
def listMaxD : List Dec → Dec
  | [] => ⟨0, 0⟩
  | x :: r => r.foldl Dec.maxP x

/-- Model of `extract_amount`: key-value phase, else collect all positive pattern
matches and prefer the maximum among those `≥ 1.0`. -/
def extract_amount (text : String) (kvp : List (String × String)) : Option Dec :=
  match kvpAmount kvp with
  | some a => some a
  | none =>
      let found := foundAmounts text.data
      match found with
      | [] => none
      | _ :: _ =>
          let sig := found.filter Dec.oneLeB
          some (match sig with
                | [] => listMaxD found
                | _ :: _ => listMaxD sig)

/-- Model of `extract_tax_amount`: first tax/vat/gst pattern whose first match parses
to a positive amount. -/
def extract_tax_amount (text : String) : Option Dec :=
  firstSome taxPatterns fun p =>
    match (findall p.1 p.2 text.data).head? with
    | some m0 =>
        match parse_currency (String.mk m0) with
        | some a => if a.neZeroB && a.posB then some a else none
        | none => none
    | none => none

/-- Model of `extract_date`: key-value phase through `parse_date`, else the four
date-shape patterns, first parseable match wins. -/
def extract_date (text : String) (kvp : List (String × String)) : Option String :=
  match (firstSome dateKeys fun key =>
      firstSome kvp fun e =>
        if occursIn (lowerL key.data) (lowerL e.1.data) then parse_date e.2
        else none) with
  | some d => some d
  | none =>
      firstSome datePatterns fun p =>
        firstSome (findall .eps p text.data) fun mch => parse_date (String.mk mch)

/-- Model of `extract_invoice_number`. -/
def extract_invoice_number (text : String) (kvp : List (String × String)) : Option String :=
  match (firstSome invoiceKeys fun key =>
      firstSome kvp fun e =>
        if occursIn (lowerL key.data) (lowerL e.1.data) && !(pyStripL e.2.data).isEmpty then
          let cleaned := cleanInvoice (pyStripL e.2.data)
          if 2 < cleaned.length then some (String.mk cleaned) else none
        else none) with
  | some s => some s
  | none =>
      firstSome invoicePatterns fun p =>
        firstSome (findall p.1 p.2 text.data) fun mch =>
          if 3 ≤ mch.length then some (String.mk mch) else none

/-- The first-8-lines scan of `extract_vendor` (`i` is the enumeration
index). -/
def vendorScan : ℕ → List (List Char) → Option String
  | _, [] => none
  | i, ln0 :: rest =>
      let ln := pyStripL ln0
      if 3 < ln.length && !startsWithAny (lowerL ln) vendorSkips then
        if containsAny (lowerL ln) vendorMarkers then some (String.mk ln)
        else if i < 3 && 5 < ln.length then some (String.mk ln)
        else vendorScan (i + 1) rest
      else vendorScan (i + 1) rest

/-- Model of `extract_vendor`. -/
def extract_vendor (text : String) (kvp : List (String × String)) : Option String :=
  match (firstSome vendorKeys fun key =>
      firstSome kvp fun e =>
        if occursIn key.data (lowerL e.1.data) then
          let vs := pyStripL e.2.data
          if !e.2.data.isEmpty && 2 < vs.length then some (String.mk vs) else none
        else none) with
  | some v => some v
  | none =>
      let lines := splitOnC '\n' text.data
      match vendorScan 0 (lines.take 8) with
      | some v => some v
      | none =>
          match lines with
          | [] => none
          | l0 :: _ =>
              let f := pyStripL l0
              if 2 < f.length then some (String.mk f) else none

def currencyCodes : List String := ["USD", "EUR", "GBP", "JPY", "CAD", "AUD"]

/-- The word-boundary test of the currency-code pattern at one position. -/
def ccPred (prev : Option Char) (s : List Char) (code : String) : Bool :=
  ciLeads code.data s &&
  (match prev with | Option.none => true | some p => !isWordChar p) &&
  (match s.drop code.data.length with
   | [] => true
   | nxt :: _ => !isWordChar nxt)

/-- Model of `re.search(r'\b(USD|EUR|GBP|JPY|CAD|AUD)\b', text, re.IGNORECASE)`:
leftmost word-bounded occurrence of a code; the returned value is
`match.group().upper()`, i.e. the canonical code. -/
def ccSearch (prev : Option Char) (s : List Char) : Option String :=
  match s with
  | [] => Option.none
  | c :: t =>
      match currencyCodes.find? (ccPred prev (c :: t)) with
      | some code => some code
      | Option.none => ccSearch (some c) t

/-- Model of `extract_currency`: symbol priority, then the code regex, default USD. -/
def extract_currency (text : String) : String :=
  let l := text.data
  if l.contains '$' then "USD"
  else if l.contains '€' then "EUR"
  else if l.contains '£' then "GBP"
  else if l.contains '¥' then "JPY"
  else
    match ccSearch Option.none l with
    | some code => code
    | Option.none => "USD"

structure LineItem where
  description : String
  amount : Option Dec
deriving DecidableEq

/-- The whole-match pattern `\$\d{1,3}(?:,\d{3})*\.?\d{0,2}` used by the
`re.sub` that deletes amounts from a line-item description. -/
def dollarAmountPat : Rgx := .cat (.lit '$') rNum

/-- One line of `extract_line_items`. -/
def lineItemOf (ln0 : List Char) : Option LineItem :=
  let ln := pyStripL ln0
  if ln.contains '$' && 15 < ln.length then
    match (findall (.lit '$') rNum ln).head? with
    | some g =>
        let d1 := pyStripL (subDel dollarAmountPat ln)
        let d2 :=
          match d1 with
          | c :: _ => if c.isDigit then (d1.dropWhile Char.isDigit).dropWhile isPySpace else d1
          | [] => d1
        if !d2.isEmpty && 3 < d2.length then
          some ⟨String.mk (d2.take 100), parse_currency (String.mk g)⟩
        else Option.none
    | Option.none => Option.none
  else Option.none

/-- Model of `extract_line_items`: qualifying lines in order, capped at five. -/
def extract_line_items (text : String) : List LineItem :=
  ((splitOnC '\n' text.data).filterMap lineItemOf).take 5

/-! ## Python values and dictionaries -/

/-- The dynamic values that flow through the records: `None`, booleans
(instances of `int` in Python), numbers, strings, and line-item lists. -/
inductive PyVal where
  | none
  | bool (b : Bool)
  | num (d : Dec)
  | str (s : String)
  | items (l : List LineItem)
deriving DecidableEq

abbrev PyDict := List (String × PyVal)

/-- Model of `d.get(k)` / `d[k]` read. -/
def dictGet (d : PyDict) (k : String) : Option PyVal :=
  (d.find? fun e => e.1 = k).map (·.2)

/-- Model of `d[k] = v`: overwrite in place, else append. -/
def dictSet : PyDict → String → PyVal → PyDict
  | [], k, v => [(k, v)]
  | e :: rest, k, v => if e.1 = k then (k, v) :: rest else e :: dictSet rest k v

def optStr : Option String → PyVal
  | some s => .str s
  | Option.none => .none

def optNum : Option Dec → PyVal
  | some d => .num d
  | Option.none => .none

/-! ## `extract_with_rules` (model_helpers.py lines 65-80) -/

def extract_with_rules (text : String) (kvp : List (String × String)) : PyDict :=
  [("vendor", optStr (extract_vendor text kvp)),
   ("amount", optNum (extract_amount text kvp)),
   ("date", optStr (extract_date text kvp)),
   ("invoice_number", optStr (extract_invoice_number text kvp)),
   ("tax_amount", optNum (extract_tax_amount text)),
   ("currency", .str (extract_currency text)),
   ("line_items", .items (extract_line_items text)),
   ("extraction_method", .str "rule_based")]

/-! ## `merge_extraction_results` (model_helpers.py lines 344-373) -/

/-- Python truthiness of the modelled values. -/
def pyTruthy : PyVal → Bool
  | .none => false
  | .bool b => b
  | .num d => d.neZeroB
  | .str s => s ≠ ""
  | .items l => !l.isEmpty

/-- Truthiness of `str(value).strip()`: for strings this is stripping; the
`str` rendering of `None`, booleans, numbers and lists is never
whitespace-only. -/
def strNonempty : PyVal → Bool
  | .str s => !(pyStripL s.data).isEmpty
  | _ => true

/-- Model of `isinstance(value, (int, float))` plus conversion (`bool` is an `int`
subclass, `float(True) == 1.0`). -/
def toNum : PyVal → Option Dec
  | .num d => some d
  | .bool b => some (if b then ⟨1, 0⟩ else ⟨0, 0⟩)
  | _ => Option.none

/-- Model of `re.match(r'\d{4}-\d{2}-\d{2}', s)`: the first ten characters have the
ISO date shape (a prefix match — trailing characters are not examined). -/
def isoLeadsL : List Char → Bool
  | a :: b :: c :: d :: h1 :: e :: f :: h2 :: g :: h :: _ =>
      a.isDigit && b.isDigit && c.isDigit && d.isDigit && h1 = '-' &&
      e.isDigit && f.isDigit && h2 = '-' && g.isDigit && h.isDigit
  | _ => false

def isoLeadsS (s : String) : Bool := isoLeadsL s.data

/-- Exact `YYYY-MM-DD` shape (what the data-model invariant asks for). -/
def isoShape (s : String) : Bool := isoLeadsL s.data && s.data.length = 10

/-- The per-field validity check of the reconciler: an AI candidate `v` for
field `k` overwrites the rule-based value exactly when this holds. -/
def passes (k : String) (v : PyVal) : Bool :=
  pyTruthy v && strNonempty v &&
  (if k = "amount" then
     match toNum v with
     | some q => q.posB
     | Option.none => false
   else if k = "tax_amount" then
     match toNum v with
     | some q => q.nonnegB
     | Option.none => false
   else if k = "date" then
     match v with
     | .str s => decide (8 ≤ s.length) && isoLeadsS s
     | _ => false
   else if k = "vendor" || k = "invoice_number" || k = "currency" then
     match v with
     | .str s => decide (1 < (pyStripL s.data).length)
     | _ => false
   else false)

/-- The value actually stored on overwrite: `float(value)` for the numeric
fields, the raw string for `date`, `value.strip()` for the name-like
fields. -/
def transform (k : String) (v : PyVal) : PyVal :=
  if k = "amount" || k = "tax_amount" then
    match toNum v with
    | some q => .num q
    | Option.none => v
  else if k = "date" then v
  else
    match v with
    | .str s => .str (String.mk (pyStripL s.data))
    | _ => v

/-- One iteration of the reconciler's loop over the AI items. -/
def mergeStep (m : PyDict) (e : String × PyVal) : PyDict :=
  if e.1 = "extraction_method" then dictSet m e.1 (.str "hybrid_ai_rules")
  else if passes e.1 e.2 then dictSet m e.1 (transform e.1 e.2)
  else m

/-- Model of `merge_extraction_results`. -/
def merge_extraction_results (rule ai : PyDict) : PyDict :=
  if dictGet ai "extraction_method" = some (.str "bedrock_failed") then rule
  else
    dictSet (ai.foldl mergeStep rule) "confidence"
      (.str (if dictGet ai "extraction_method" = some (.str "bedrock_ai") then "high"
             else "medium"))

/-! ## Error taxonomy (error_handler.py, retry_handler.py) -/

/-- The exceptions that can cross the resilience layer.  `retryableError` and
`nonRetryableError` are the taxonomy classes of retry_handler.py (their
messages carry no behaviour); `validationError` is error_handler.py's
`ValidationError` (a subclass of `InvoiceProcessingError`); `clientError` is
botocore's `ClientError` with its response error code and HTTP status;
`genericException` is a plain `Exception(msg)`. -/
inductive PyError where
  | retryableError (msg : String)
  | nonRetryableError (msg : String)
  | validationError (msg : String)
  | clientError (code : String) (status : ℕ)
  | genericException (msg : String)
deriving DecidableEq

/-- The exception classes that appear in `retryable_exceptions` lists and
`isinstance` checks. -/
inductive ExcClass where
  | retryableErrorCls
  | nonRetryableErrorCls
  | clientErrorCls
  | validationErrorCls
  | invoiceProcessingErrorCls
  | exceptionCls
deriving DecidableEq

/-- Model of `isinstance(e, cls)` for the modelled hierarchy: every error is an
`Exception`; `ValidationError < InvoiceProcessingError < Exception`; the
other classes derive directly from `Exception`. -/
def isInst (e : PyError) (cls : ExcClass) : Bool :=
  match e, cls with
  | _, .exceptionCls => true
  | .retryableError _, .retryableErrorCls => true
  | .nonRetryableError _, .nonRetryableErrorCls => true
  | .clientError _ _, .clientErrorCls => true
  | .validationError _, .validationErrorCls => true
  | .validationError _, .invoiceProcessingErrorCls => true
  | _, _ => false

/-- Does the failure belong to the spec's four-kind taxonomy?  (The code
defines only three of the four kinds — there is no `CircuitOpenError`
class anywhere in the repository.) -/
def isTaxonomyKind : PyError → Bool
  | .retryableError _ => true
  | .nonRetryableError _ => true
  | .validationError _ => true
  | _ => false

/-! ## AWS error classifier (retry_handler.py lines 96-135) -/

def retryable_codes : List String :=
  ["ThrottlingException", "ProvisionedThroughputExceededException",
   "RequestLimitExceeded", "ServiceUnavailable", "InternalServerError",
   "InternalError", "ServiceException", "SlowDown", "TooManyRequestsException"]

def non_retryable_codes : List String :=
  ["ValidationException", "InvalidParameterException", "AccessDeniedException",
   "UnauthorizedOperation", "InvalidDocumentException",
   "UnsupportedDocumentException", "DocumentTooLargeException",
   "BadDocumentException"]

/-- Model of `_is_retryable_aws_error` on the error's code and HTTP status (the two
response fields it reads). -/
def is_retryable_aws_error (code : String) (status : ℕ) : Bool :=
  if code ∈ non_retryable_codes then false
  else if code ∈ retryable_codes then true
  else decide (500 ≤ status) && decide (status < 600)

/-- Model of `_is_retryable_error`: explicitly non-retryable errors never retry; else
the first matching class in the retryable list decides (with the AWS code
check for `ClientError`). -/
def is_retryable_error (e : PyError) (excs : List ExcClass) : Bool :=
  if isInst e .nonRetryableErrorCls then false
  else
    match excs.find? (isInst e) with
    | some _ =>
        if isInst e .clientErrorCls then
          match e with
          | .clientError code status => is_retryable_aws_error code status
          | _ => true
        else true
    | Option.none => false

/-- The default `retryable_exceptions = [RetryableError, ClientError]`. -/
def defaultRetryable : List ExcClass := [.retryableErrorCls, .clientErrorCls]

/-! ## Retry with backoff (retry_handler.py lines 17-76)

A wrapped operation is an attempt-indexed outcome `f : ℕ → PyResult α`
(attempt `i` is the `i`-th invocation); `time.sleep` only delays and is
elided.  The wrapper returns the final outcome together with the number of
invocations performed. -/

inductive PyResult (α : Type) where
  | ok (v : α)
  | raised (e : PyError)
deriving DecidableEq

/-- The retry loop from attempt `attempt` with `remaining` retries left
(`remaining = max_retries - attempt`). -/
def retryAux {α : Type} (f : ℕ → PyResult α) (excs : List ExcClass) :
    ℕ → ℕ → PyResult α × ℕ
  | attempt, remaining =>
      match f attempt with
      | .ok v => (.ok v, attempt + 1)
      | .raised e =>
          if is_retryable_error e excs then
            match remaining with
            | 0 => (.raised e, attempt + 1)
            | r + 1 => retryAux f excs (attempt + 1) r
          else (.raised e, attempt + 1)

/-- Model of `retry_with_backoff(max_retries, ..., retryable_exceptions)(f)`. -/
def retry_with_backoff {α : Type} (maxRetries : ℕ) (excs : List ExcClass)
    (f : ℕ → PyResult α) : PyResult α × ℕ :=
  retryAux f excs 0 maxRetries

/-! ## Circuit breaker (retry_handler.py lines 169-213) -/

inductive CBState where
  | CLOSED
  | OPEN
  | HALF_OPEN
deriving DecidableEq

structure CircuitBreaker where
  failure_threshold : ℕ
  recovery_timeout : ℚ
  failure_count : ℕ
  last_failure_time : Option ℚ
  state : CBState
deriving DecidableEq

/-- Model of `CircuitBreaker(failure_threshold, recovery_timeout)`. -/
def initCB (ft : ℕ) (rt : ℚ) : CircuitBreaker := ⟨ft, rt, 0, Option.none, .CLOSED⟩

/-- Model of `_on_success`: reset the count; leave `OPEN ... CLOSED` via `HALF_OPEN`
only. -/
def CircuitBreaker.onSuccess (cb : CircuitBreaker) : CircuitBreaker :=
  { cb with
    failure_count := 0
    state := if cb.state = .HALF_OPEN then .CLOSED else cb.state }

/-- Model of `_on_failure` at time `t`: bump the count, stamp the failure time, open
once the threshold is reached. -/
def CircuitBreaker.onFailure (cb : CircuitBreaker) (t : ℚ) : CircuitBreaker :=
  { cb with
    failure_count := cb.failure_count + 1
    last_failure_time := some t
    state := if cb.failure_threshold ≤ cb.failure_count + 1 then .OPEN else cb.state }

/-- The message of the exception raised while the breaker is open. -/
def circuitOpenMsg : String := "Circuit breaker is OPEN - service unavailable"

/-- Run the wrapped function (whose outcome at this instant is `outcome`)
and apply the success/failure hook; the Bool records that the function was
invoked. -/
def invokeStep (cb : CircuitBreaker) (t : ℚ) (outcome : PyResult Unit) :
    (PyResult Unit × Bool) × CircuitBreaker :=
  match outcome with
  | .ok v => ((.ok v, true), cb.onSuccess)
  | .raised e => ((.raised e, true), cb.onFailure t)

/-- Model of `CircuitBreaker.call` at wall-clock time `t`.  `none` models the
`TypeError` of comparing against a `None` timestamp, which reachable states
never hit (see `reachable_invariant`). -/
def CircuitBreaker.call (cb : CircuitBreaker) (t : ℚ) (outcome : PyResult Unit) :
    Option ((PyResult Unit × Bool) × CircuitBreaker) :=
  if cb.state = .OPEN then
    match cb.last_failure_time with
    | Option.none => Option.none
    | some lf =>
        if cb.recovery_timeout < t - lf then
          some (invokeStep { cb with state := .HALF_OPEN } t outcome)
        else some ((.raised (.genericException circuitOpenMsg), false), cb)
  else some (invokeStep cb t outcome)

/-- The states a breaker constructed with `CircuitBreaker(ft, rt)` can be in
after any sequence of guarded calls. -/
inductive Reachable (ft : ℕ) (rt : ℚ) : CircuitBreaker → Prop
  | init : Reachable ft rt (initCB ft rt)
  | step {cb cb' : CircuitBreaker} {t : ℚ} {o : PyResult Unit}
      {res : PyResult Unit × Bool} :
      Reachable ft rt cb → cb.call t o = some (res, cb') → Reachable ft rt cb'

/-! # Theorems -/

/-! ## Generic helper lemmas -/

theorem firstSome_pred {α β : Type} (P : β → Prop) {f : α → Option β}
    (hf : ∀ x b, f x = some b → P b) :
    ∀ {l : List α} {b : β}, firstSome l f = some b → P b := by
  intro l
  induction l with
  | nil => intro b h; simp [firstSome] at h
  | cons x r ih =>
      intro b h
      rw [firstSome] at h
      cases hx : f x with
      | some v =>
          rw [hx] at h
          simp only [Option.some.injEq] at h
          exact h ▸ hf x v hx
      | none => rw [hx] at h; exact ih h

theorem firstSome_mem {α β : Type} {f : α → Option β} :
    ∀ {l : List α} {b : β}, firstSome l f = some b → ∃ x ∈ l, f x = some b := by
  intro l
  induction l with
  | nil => intro b h; simp [firstSome] at h
  | cons x r ih =>
      intro b h
      rw [firstSome] at h
      cases hx : f x with
      | some v =>
          rw [hx] at h
          exact ⟨x, by simp, by rw [hx]; exact h⟩
      | none =>
          rw [hx] at h
          obtain ⟨y, hy, hfy⟩ := ih h
          exact ⟨y, by simp [hy], hfy⟩

theorem pow10_pos (e : ℕ) : 0 < pow10 e := by
  induction e with
  | zero => simp [pow10]
  | succ n ih => simp only [pow10]; omega

theorem pow10_int_pos (e : ℕ) : (0 : ℤ) < (pow10 e : ℤ) := by
  exact_mod_cast pow10_pos e

theorem pow10_rat_pos (e : ℕ) : (0 : ℚ) < (pow10 e : ℚ) := by
  exact_mod_cast pow10_pos e

/-- The executable positivity test agrees with positivity of the value. -/
theorem Dec.posB_iff (d : Dec) : d.posB = true ↔ 0 < d.toQ := by
  unfold Dec.posB Dec.toQ
  rw [decide_eq_true_eq, div_pos_iff]
  constructor
  · intro h
    exact Or.inl ⟨by exact_mod_cast h, pow10_rat_pos d.e⟩
  · rintro (⟨h, _⟩ | ⟨_, h⟩)
    · exact_mod_cast h
    · exact absurd (pow10_rat_pos d.e) (not_lt.2 h.le)

/-- The executable non-negativity test agrees with the value. -/
theorem Dec.nonnegB_iff (d : Dec) : d.nonnegB = true ↔ 0 ≤ d.toQ := by
  unfold Dec.nonnegB Dec.toQ
  rw [decide_eq_true_eq, le_div_iff₀ (pow10_rat_pos d.e), zero_mul]
  exact ⟨fun h => by exact_mod_cast h, fun h => by exact_mod_cast h⟩

theorem foldl_maxP_mem : ∀ (r : List Dec) (x : Dec), r.foldl Dec.maxP x ∈ x :: r
  | [], x => by simp
  | y :: t, x => by
      have h := foldl_maxP_mem t (x.maxP y)
      simp only [List.foldl_cons]
      rcases List.mem_cons.1 h with h1 | h1
      · rw [h1]
        unfold Dec.maxP
        by_cases hc : Dec.ltB x y = true
        · rw [if_pos hc]
          exact List.mem_cons.2 (Or.inr (List.mem_cons.2 (Or.inl rfl)))
        · rw [if_neg hc]
          exact List.mem_cons.2 (Or.inl rfl)
      · exact List.mem_cons.2 (Or.inr (List.mem_cons.2 (Or.inr h1)))

/-- Python's `max` of a nonempty list returns an element of the list. -/
theorem listMaxD_mem {x : Dec} {r : List Dec} : listMaxD (x :: r) ∈ x :: r :=
  foldl_maxP_mem r x

/-! ## Positivity of extracted amounts -/

theorem kvpAmount_pos {kvp : List (String × String)} {a : Dec}
    (h : kvpAmount kvp = some a) : a.posB = true := by
  refine firstSome_pred (fun d : Dec => d.posB = true) ?_ h
  intro key b hb
  refine firstSome_pred (fun d : Dec => d.posB = true) ?_ hb
  intro e c hc
  by_cases hocc : occursIn (lowerL key.data) (lowerL e.1.data) = true
  · rw [if_pos hocc] at hc
    cases hp : parse_currency e.2 with
    | some av =>
        simp only [hp] at hc
        by_cases hpos : (av.neZeroB && av.posB) = true
        · rw [if_pos hpos] at hc
          cases hc
          simp only [Bool.and_eq_true] at hpos
          exact hpos.2
        · rw [if_neg hpos] at hc; cases hc
    | none => simp only [hp] at hc; cases hc
  · rw [if_neg hocc] at hc; cases hc

theorem foundAmounts_pos {text : List Char} {a : Dec}
    (h : a ∈ foundAmounts text) : a.posB = true := by
  unfold foundAmounts at h
  rw [List.mem_flatten] at h
  obtain ⟨l, hl, hal⟩ := h
  rw [List.mem_map] at hl
  obtain ⟨p, _, rfl⟩ := hl
  rw [List.mem_filterMap] at hal
  obtain ⟨g, _, hg⟩ := hal
  cases hp : parse_currency (String.mk g) with
  | some av =>
      simp only [hp] at hg
      by_cases hpos : (av.neZeroB && av.posB) = true
      · rw [if_pos hpos] at hg
        cases hg
        simp only [Bool.and_eq_true] at hpos
        exact hpos.2
      · rw [if_neg hpos] at hg; cases hg
  | none => simp only [hp] at hg; cases hg

/-- Whatever `extract_amount` returns is strictly positive. -/
theorem extract_amount_pos {text : String} {kvp : List (String × String)} {a : Dec}
    (h : extract_amount text kvp = some a) : a.posB = true := by
  unfold extract_amount at h
  cases hk : kvpAmount kvp with
  | some v =>
      rw [hk] at h
      cases h
      exact kvpAmount_pos hk
  | none =>
      rw [hk] at h
      cases hf : foundAmounts text.data with
      | nil => rw [hf] at h; cases h
      | cons f0 fr =>
          rw [hf] at h
          simp only [Option.some.injEq] at h
          have hmem : a ∈ f0 :: fr := by
            cases hs : (f0 :: fr).filter Dec.oneLeB with
            | nil => rw [hs] at h; exact h ▸ listMaxD_mem
            | cons s0 sr =>
                rw [hs] at h
                have hmem2 : a ∈ s0 :: sr := h ▸ listMaxD_mem
                exact List.mem_of_mem_filter (hs ▸ hmem2)
          exact foundAmounts_pos (hf ▸ hmem)

/-- Whatever `extract_tax_amount` returns is strictly positive. -/
theorem extract_tax_amount_pos {text : String} {a : Dec}
    (h : extract_tax_amount text = some a) : a.posB = true := by
  refine firstSome_pred (fun d : Dec => d.posB = true) ?_ h
  intro p b hb
  cases hm : (findall p.1 p.2 text.data).head? with
  | some m0 =>
      simp only [hm] at hb
      cases hp : parse_currency (String.mk m0) with
      | some av =>
          simp only [hp] at hb
          by_cases hpos : (av.neZeroB && av.posB) = true
          · rw [if_pos hpos] at hb
            cases hb
            simp only [Bool.and_eq_true] at hpos
            exact hpos.2
          · rw [if_neg hpos] at hb; cases hb
      | none => simp only [hp] at hb; cases hb
  | none => simp only [hm] at hb; cases hb

/-! ## Soundness of `parse_date` output -/

/-- A valid calendar date within `datetime`'s year range. -/
def ValidYMD (y m d : ℕ) : Prop :=
  1 ≤ y ∧ y ≤ 9999 ∧ 1 ≤ m ∧ m ≤ 12 ∧ 1 ≤ d ∧ d ≤ daysInMonth y m

theorem strptimeF_sound {toks : List DTok} {s : List Char} {r : ℕ × ℕ × ℕ}
    (h : strptimeF toks s = some r) : ValidYMD r.1 r.2.1 r.2.2 := by
  unfold strptimeF at h
  cases hm : matchToks toks ⟨Option.none, Option.none, Option.none⟩ s with
  | none => rw [hm] at h; cases h
  | some p =>
      rw [hm] at h
      simp only [Option.some_bind] at h
      unfold validateParts at h
      cases hy : p.y with
      | none => simp only [hy] at h; cases h
      | some y =>
          cases hmm : p.m with
          | none => simp only [hy, hmm] at h; cases h
          | some m =>
              cases hd : p.d with
              | none => simp only [hy, hmm, hd] at h; cases h
              | some d =>
                  simp only [hy, hmm, hd] at h
                  by_cases hc :
                      (1 ≤ y && y ≤ 9999 && (1 ≤ m) && m ≤ 12 && (1 ≤ d) &&
                        d ≤ daysInMonth y m) = true
                  · rw [if_pos hc] at h
                    cases h
                    simp only [Bool.and_eq_true, decide_eq_true_eq] at hc
                    exact ⟨hc.1.1.1.1.1, hc.1.1.1.1.2, hc.1.1.1.2, hc.1.1.2, hc.1.2, hc.2⟩
                  · rw [if_neg hc] at h; cases h

/-- Every `parse_date` result is the ISO rendering of a valid calendar
date. -/
theorem parse_date_sound {v : String} {s : String} (h : parse_date v = some s) :
    ∃ y m d, ValidYMD y m d ∧ s = isoFmt y m d := by
  unfold parse_date at h
  by_cases hv : v = ""
  · rw [if_pos hv] at h; cases h
  · rw [if_neg hv] at h
    rw [Option.map_eq_some'] at h
    obtain ⟨r, hr, rfl⟩ := h
    have hs := firstSome_pred (fun r : ℕ × ℕ × ℕ => ValidYMD r.1 r.2.1 r.2.2)
      (fun f b hb => strptimeF_sound hb) hr
    exact ⟨r.1, r.2.1, r.2.2, hs, rfl⟩

/-! ## Digit strings and the ISO shape -/

theorem digitChar10_isDigit {d : ℕ} (h : d < 10) : (digitChar10 d).isDigit = true := by
  interval_cases d <;> decide

theorem digitVal_digitChar10 {d : ℕ} (h : d < 10) : digitVal (digitChar10 d) = d := by
  interval_cases d <;> decide

theorem natDigitsF_stable :
    ∀ (f1 f2 n : ℕ), n < f1 → n < f2 → natDigitsF f1 n = natDigitsF f2 n := by
  intro f1
  induction f1 with
  | zero => intro f2 n h; omega
  | succ f1' ih =>
      intro f2 n h1 h2
      cases f2 with
      | zero => omega
      | succ f2' =>
          simp only [natDigitsF]
          by_cases hn : n < 10
          · rw [if_pos hn, if_pos hn]
          · rw [if_neg hn, if_neg hn]
            have hd : n / 10 < n := Nat.div_lt_self (by omega) (by omega)
            rw [ih f2' (n / 10) (by omega) (by omega)]

/-- The defining recursion of `natDigits`. -/
theorem natDigits_eq (n : ℕ) :
    natDigits n =
      if n < 10 then [digitChar10 n] else natDigits (n / 10) ++ [digitChar10 (n % 10)] := by
  show natDigitsF (n + 1) n = _
  rw [natDigitsF]
  by_cases hn : n < 10
  · rw [if_pos hn, if_pos hn]
  · rw [if_neg hn, if_neg hn]
    have hd : n / 10 < n := Nat.div_lt_self (by omega) (by omega)
    rw [natDigitsF_stable n (n / 10 + 1) (n / 10) (by omega) (by omega)]
    rfl

theorem natDigits_all_digits (n : ℕ) : ∀ c ∈ natDigits n, c.isDigit = true := by
  induction n using Nat.strong_induction_on with
  | _ n ih =>
      rw [natDigits_eq]
      by_cases hn : n < 10
      · rw [if_pos hn]
        intro c hc
        rw [List.mem_singleton] at hc
        exact hc ▸ digitChar10_isDigit hn
      · rw [if_neg hn]
        intro c hc
        rcases List.mem_append.1 hc with h | h
        · exact ih (n / 10) (Nat.div_lt_self (by omega) (by omega)) c h
        · rw [List.mem_singleton] at h
          exact h ▸ digitChar10_isDigit (Nat.mod_lt _ (by omega))

theorem natDigits_ne_nil (n : ℕ) : natDigits n ≠ [] := by
  rw [natDigits_eq]
  by_cases hn : n < 10
  · rw [if_pos hn]; simp
  · rw [if_neg hn]; simp

theorem valueDU_natDigits (n : ℕ) : valueDU (natDigits n) = n := by
  induction n using Nat.strong_induction_on with
  | _ n ih =>
      rw [natDigits_eq]
      by_cases hn : n < 10
      · rw [if_pos hn]
        show (if (digitChar10 n).isDigit then 10 * 0 + digitVal (digitChar10 n) else 0) = n
        rw [if_pos (digitChar10_isDigit hn), digitVal_digitChar10 hn]
        omega
      · rw [if_neg hn]
        unfold valueDU
        rw [List.foldl_append]
        have h1 : (natDigits (n / 10)).foldl
            (fun a c => if c.isDigit then 10 * a + digitVal c else a) 0 = n / 10 :=
          ih (n / 10) (Nat.div_lt_self (by omega) (by omega))
        rw [h1]
        show (if (digitChar10 (n % 10)).isDigit then 10 * (n / 10) + digitVal (digitChar10 (n % 10))
              else n / 10) = n
        rw [if_pos (digitChar10_isDigit (Nat.mod_lt _ (by omega))),
            digitVal_digitChar10 (Nat.mod_lt _ (by omega))]
        omega

theorem natDigits_length_two {n : ℕ} (h1 : 10 ≤ n) (h2 : n ≤ 99) :
    (natDigits n).length = 2 := by
  rw [natDigits_eq, if_neg (by omega)]
  have : n / 10 < 10 := by omega
  rw [natDigits_eq, if_pos this]
  rfl

theorem natDigits_length_four {n : ℕ} (h1 : 1000 ≤ n) (h2 : n ≤ 9999) :
    (natDigits n).length = 4 := by
  rw [natDigits_eq, if_neg (by omega)]
  rw [natDigits_eq, if_neg (by omega : ¬ n / 10 < 10)]
  rw [natDigits_eq, if_neg (by omega : ¬ n / 10 / 10 < 10)]
  rw [natDigits_eq, if_pos (by omega : n / 10 / 10 / 10 < 10)]
  simp

theorem pad2_shape {m : ℕ} (h1 : 1 ≤ m) (h2 : m ≤ 31) :
    ∃ a b, pad2 m = [a, b] ∧ a.isDigit = true ∧ b.isDigit = true := by
  unfold pad2
  by_cases hm : m < 10
  · rw [if_pos hm, natDigits_eq, if_pos hm]
    exact ⟨'0', digitChar10 m, rfl, by decide, digitChar10_isDigit hm⟩
  · rw [if_neg hm, natDigits_eq, if_neg hm, natDigits_eq, if_pos (by omega : m / 10 < 10)]
    exact ⟨digitChar10 (m / 10), digitChar10 (m % 10), rfl,
           digitChar10_isDigit (by omega), digitChar10_isDigit (by omega)⟩

theorem exists_four_digits {l : List Char} (hlen : l.length = 4)
    (hd : ∀ c ∈ l, c.isDigit = true) :
    ∃ a b c d, l = [a, b, c, d] ∧ a.isDigit = true ∧ b.isDigit = true ∧
      c.isDigit = true ∧ d.isDigit = true := by
  rcases l with _ | ⟨a, _ | ⟨b, _ | ⟨c, _ | ⟨d, _ | ⟨e, t⟩⟩⟩⟩⟩ <;>
    simp_all [List.length]
  exact ⟨a, b, c, d, ⟨rfl, rfl, rfl, rfl⟩, hd.1, hd.2.1, hd.2.2.1, hd.2.2.2⟩

/-- For four-digit years the ISO rendering has the exact `YYYY-MM-DD`
shape. -/
theorem isoShape_isoFmt {y m d : ℕ} (hy1 : 1000 ≤ y) (hy2 : y ≤ 9999)
    (hm1 : 1 ≤ m) (hm2 : m ≤ 12) (hd1 : 1 ≤ d) (hd2 : d ≤ 31) :
    isoShape (isoFmt y m d) = true := by
  obtain ⟨a, b, c, e, hy, ha, hb, hc, he⟩ :=
    exists_four_digits (natDigits_length_four hy1 hy2) (natDigits_all_digits y)
  obtain ⟨f, g, hmeq, hf, hg⟩ := pad2_shape hm1 (by omega)
  obtain ⟨i, j, hdeq, hi, hj⟩ := pad2_shape hd1 hd2
  unfold isoShape isoFmt
  show (isoLeadsL (natDigits y ++ '-' :: (pad2 m ++ '-' :: pad2 d)) &&
      decide ((natDigits y ++ '-' :: (pad2 m ++ '-' :: pad2 d)).length = 10)) = true
  rw [hy, hmeq, hdeq]
  simp [isoLeadsL, ha, hb, hc, he, hf, hg, hi, hj]

/-- A string passing the reconciler's prefix check has at least ten
characters (whose first ten have the ISO shape). -/
theorem isoLeadsL_length {l : List Char} (h : isoLeadsL l = true) : 10 ≤ l.length := by
  unfold isoLeadsL at h
  split at h
  · simp only [List.length_cons]
    omega
  · cases h

/-! ## Dictionary lemmas -/

theorem dictGet_dictSet_self (d : PyDict) (k : String) (v : PyVal) :
    dictGet (dictSet d k v) k = some v := by
  induction d with
  | nil => simp [dictSet, dictGet, List.find?]
  | cons e rest ih =>
      unfold dictSet
      by_cases he : e.1 = k
      · rw [if_pos he]
        simp [dictGet, List.find?]
      · rw [if_neg he]
        unfold dictGet at ih ⊢
        rw [List.find?_cons_of_neg _ (by simpa using he)]
        exact ih

theorem dictGet_dictSet_ne (d : PyDict) {k k' : String} (v : PyVal) (h : k ≠ k') :
    dictGet (dictSet d k v) k' = dictGet d k' := by
  induction d with
  | nil => simp [dictSet, dictGet, List.find?, h]
  | cons e rest ih =>
      unfold dictSet
      by_cases he : e.1 = k
      · rw [if_pos he]
        unfold dictGet
        rw [List.find?_cons_of_neg _ (by simpa using h),
            List.find?_cons_of_neg _ (by simp [he]; exact h)]
      · rw [if_neg he]
        unfold dictGet at ih ⊢
        by_cases he' : e.1 = k'
        · rw [List.find?_cons_of_pos _ (by simpa using he'),
              List.find?_cons_of_pos _ (by simpa using he')]
        · rw [List.find?_cons_of_neg _ (by simpa using he'),
              List.find?_cons_of_neg _ (by simpa using he')]
          exact ih

theorem dictGet_cons_self {e : String × PyVal} {rest : PyDict} {k : String}
    (h : e.1 = k) : dictGet (e :: rest) k = some e.2 := by
  unfold dictGet
  rw [List.find?_cons_of_pos _ (by simpa using h)]
  rfl

theorem dictGet_cons_ne {e : String × PyVal} {rest : PyDict} {k : String}
    (h : e.1 ≠ k) : dictGet (e :: rest) k = dictGet rest k := by
  unfold dictGet
  rw [List.find?_cons_of_neg _ (by simpa using h)]

/-- A `dictGet` hit is a membership (first occurrence, so always a member). -/
theorem dictGet_some_mem {d : PyDict} {k : String} {v : PyVal}
    (h : dictGet d k = some v) : (k, v) ∈ d := by
  unfold dictGet at h
  rw [Option.map_eq_some'] at h
  obtain ⟨e, he, hv⟩ := h
  have hmem := List.mem_of_find?_eq_some he
  have hk := List.find?_some he
  simp only [decide_eq_true_eq] at hk
  have : e = (k, v) := by
    cases e
    simp_all
  exact this ▸ hmem

/-- With unique keys (a Python dict), membership determines `dictGet`. -/
theorem dictGet_eq_some_of_mem {d : PyDict} (hnd : (d.map Prod.fst).Nodup)
    {k : String} {v : PyVal} (hmem : (k, v) ∈ d) : dictGet d k = some v := by
  induction d with
  | nil => cases hmem
  | cons e rest ih =>
      rw [List.map_cons, List.nodup_cons] at hnd
      rcases List.mem_cons.1 hmem with h | h
      · rw [← h]
        exact dictGet_cons_self rfl
      · have hk : e.1 ≠ k := by
          intro he
          exact hnd.1 (he ▸ (List.mem_map.2 ⟨(k, v), h, rfl⟩))
        rw [dictGet_cons_ne hk]
        exact ih hnd.2 h

/-- Keys survive `dictSet`. -/
theorem dictSet_keys_mem {d : PyDict} {k' : String} (k : String) (v : PyVal)
    (h : k' ∈ d.map Prod.fst) : k' ∈ (dictSet d k v).map Prod.fst := by
  induction d with
  | nil => cases h
  | cons e rest ih =>
      unfold dictSet
      by_cases he : e.1 = k
      · rw [if_pos he]
        rcases List.mem_cons.1 h with h1 | h1
        · exact List.mem_cons.2 (Or.inl (by rw [h1, he]))
        · exact List.mem_cons.2 (Or.inr h1)
      · rw [if_neg he]
        rcases List.mem_cons.1 h with h1 | h1
        · exact List.mem_cons.2 (Or.inl h1)
        · exact List.mem_cons.2 (Or.inr (ih h1))

/-! ## Reconciler fold lemmas -/

theorem dictGet_mergeStep_ne {m : PyDict} {e : String × PyVal} {k : String}
    (h : e.1 ≠ k) : dictGet (mergeStep m e) k = dictGet m k := by
  unfold mergeStep
  by_cases h1 : e.1 = "extraction_method"
  · rw [if_pos h1]
    exact dictGet_dictSet_ne m _ h
  · rw [if_neg h1]
    by_cases h2 : passes e.1 e.2 = true
    · rw [if_pos h2]
      exact dictGet_dictSet_ne m _ h
    · rw [if_neg h2]

/-- Keys that never occur in the AI mapping are left alone by the loop. -/
theorem foldl_mergeStep_notin {k : String} :
    ∀ {ai : PyDict}, k ∉ ai.map Prod.fst →
      ∀ m, dictGet (ai.foldl mergeStep m) k = dictGet m k := by
  intro ai
  induction ai with
  | nil => intro _ m; rfl
  | cons e rest ih =>
      intro h m
      rw [List.map_cons] at h
      have h1 : e.1 ≠ k := fun he => h (List.mem_cons.2 (Or.inl he.symm))
      have h2 : k ∉ rest.map Prod.fst := fun hm => h (List.mem_cons.2 (Or.inr hm))
      rw [List.foldl_cons, ih h2, dictGet_mergeStep_ne h1]

/-- The value the loop leaves at a key present in the AI mapping (unique
keys): the sentinel rewrite for `extraction_method`, the validated overwrite
when the candidate passes, else the incoming value. -/
theorem foldl_mergeStep_mem {k : String} {v : PyVal} :
    ∀ {ai : PyDict}, (ai.map Prod.fst).Nodup → (k, v) ∈ ai →
      ∀ m, dictGet (ai.foldl mergeStep m) k =
        (if k = "extraction_method" then some (.str "hybrid_ai_rules")
         else if passes k v then some (transform k v) else dictGet m k) := by
  intro ai
  induction ai with
  | nil => intro _ h; cases h
  | cons e rest ih =>
      intro hnd hmem m
      rw [List.map_cons, List.nodup_cons] at hnd
      rw [List.foldl_cons]
      rcases List.mem_cons.1 hmem with h | h
      · have hk : k ∉ rest.map Prod.fst := by
          rw [← h] at hnd
          exact hnd.1
        rw [foldl_mergeStep_notin hk]
        unfold mergeStep
        rw [← h]
        by_cases h1 : k = "extraction_method"
        · rw [if_pos h1, if_pos h1]
          exact dictGet_dictSet_self m k _
        · rw [if_neg h1, if_neg h1]
          by_cases h2 : passes k v = true
          · rw [if_pos h2, if_pos h2]
            exact dictGet_dictSet_self m k _
          · rw [if_neg h2, if_neg h2]
      · have hk : e.1 ≠ k := by
          intro he
          exact hnd.1 (he ▸ (List.mem_map.2 ⟨(k, v), h, rfl⟩))
        rw [ih hnd.2 h (mergeStep m e), dictGet_mergeStep_ne hk]

/-- Any property of a dictionary preserved by every loop iteration is
preserved by the whole loop. -/
theorem foldl_mergeStep_pres (Q : PyDict → Prop)
    (hQ : ∀ m e, Q m → Q (mergeStep m e)) :
    ∀ (ai : PyDict) (m : PyDict), Q m → Q (ai.foldl mergeStep m) := by
  intro ai
  induction ai with
  | nil => intro m h; exact h
  | cons e rest ih =>
      intro m h
      rw [List.foldl_cons]
      exact ih _ (hQ m e h)

/-! ## Claim C4: the AWS error classifier -/

theorem retryable_disjoint {code : String} (h : code ∈ retryable_codes) :
    code ∉ non_retryable_codes := by
  fin_cases h <;> decide

/-- C4.  For every raw AWS error code, `_is_retryable_aws_error` returns
retryable on each code of the fixed retryable set, non-retryable on each code
of the fixed non-retryable set, and for any other code it is retryable
exactly when the HTTP status lies in `[500, 600)`. -/
theorem c4_error_classifier (code : String) (status : ℕ) :
    (code ∈ retryable_codes → is_retryable_aws_error code status = true) ∧
    (code ∈ non_retryable_codes → is_retryable_aws_error code status = false) ∧
    (code ∉ retryable_codes → code ∉ non_retryable_codes →
      (is_retryable_aws_error code status = true ↔ 500 ≤ status ∧ status < 600)) := by
  refine ⟨?_, ?_, ?_⟩
  · intro h
    unfold is_retryable_aws_error
    rw [if_neg (retryable_disjoint h), if_pos h]
  · intro h
    unfold is_retryable_aws_error
    rw [if_pos h]
  · intro h1 h2
    unfold is_retryable_aws_error
    rw [if_neg h2, if_neg h1]
    simp [Bool.and_eq_true]

/-- Witness for C4 at concrete inputs: a throttling error is retryable, a
validation error is not, and an unknown code follows the 5xx rule. -/
theorem c4_error_classifier_witness :
    is_retryable_aws_error "ThrottlingException" 400 = true ∧
    is_retryable_aws_error "ValidationException" 503 = false ∧
    (is_retryable_aws_error "SomethingWeird" 503 = true ↔ 500 ≤ 503 ∧ 503 < 600) :=
  ⟨(c4_error_classifier "ThrottlingException" 400).1 (by decide),
   (c4_error_classifier "ValidationException" 503).2.1 (by decide),
   (c4_error_classifier "SomethingWeird" 503).2.2 (by decide) (by decide)⟩

/-! ## Claim C1: the retry wrapper -/

theorem retryable_is_retryable (msg : String) :
    is_retryable_error (.retryableError msg) defaultRetryable = true := rfl

theorem nonretryable_not_retryable (msg : String) :
    is_retryable_error (.nonRetryableError msg) defaultRetryable = false := rfl

theorem validation_not_retryable (msg : String) :
    is_retryable_error (.validationError msg) defaultRetryable = false := rfl

theorem retryAux_retry_then_ok {α : Type} {f : ℕ → PyResult α} {v : α} :
    ∀ (remaining attempt : ℕ),
      (∀ i, i < remaining → ∃ msg, f (attempt + i) = .raised (.retryableError msg)) →
      f (attempt + remaining) = .ok v →
      retryAux f defaultRetryable attempt remaining = (.ok v, attempt + remaining + 1) := by
  intro remaining
  induction remaining with
  | zero =>
      intro attempt _ hok
      rw [Nat.add_zero] at hok
      unfold retryAux
      simp only [hok, Nat.add_zero]
  | succ r ih =>
      intro attempt h hok
      obtain ⟨msg, hmsg⟩ := h 0 (by omega)
      rw [Nat.add_zero] at hmsg
      unfold retryAux
      simp only [hmsg, retryable_is_retryable msg, if_true]
      have h' : ∀ i, i < r → ∃ m2, f (attempt + 1 + i) = .raised (.retryableError m2) := by
        intro i hi
        have := h (i + 1) (by omega)
        rwa [show attempt + (i + 1) = attempt + 1 + i by omega] at this
      have hok' : f (attempt + 1 + r) = .ok v := by
        rwa [show attempt + 1 + r = attempt + (r + 1) by omega]
      rw [ih (attempt + 1) h' hok']
      congr 1
      omega

theorem retryAux_all_fail {α : Type} {f : ℕ → PyResult α}
    (h : ∀ i, ∃ msg, f i = .raised (.retryableError msg)) :
    ∀ (remaining attempt : ℕ),
      retryAux f defaultRetryable attempt remaining =
        (f (attempt + remaining), attempt + remaining + 1) := by
  intro remaining
  induction remaining with
  | zero =>
      intro attempt
      obtain ⟨msg, hmsg⟩ := h attempt
      unfold retryAux
      simp only [hmsg, retryable_is_retryable msg, if_true, Nat.add_zero]
  | succ r ih =>
      intro attempt
      obtain ⟨msg, hmsg⟩ := h attempt
      unfold retryAux
      simp only [hmsg, retryable_is_retryable msg, if_true]
      rw [ih (attempt + 1)]
      congr 2 <;> omega

/-- C1.  Under the default retryable exception set, an operation that fails
with `RetryableError` on the first `max_retries` attempts and then succeeds
is invoked `max_retries + 1` times and its success value is returned; an
operation that always fails with `RetryableError` is invoked
`max_retries + 1` times and the last error (a `RetryableError`) is raised;
an operation that fails with `NonRetryableError`, or with `ValidationError`
(which is outside the retryable set), is invoked exactly once and its error
is raised.  (The invocation count is the second component; `time.sleep`
between attempts is elided.) -/
theorem c1_retry_wrapper {α : Type} (mr : ℕ) (f : ℕ → PyResult α) :
    (∀ v, (∀ i, i < mr → ∃ msg, f i = .raised (.retryableError msg)) → f mr = .ok v →
      retry_with_backoff mr defaultRetryable f = (.ok v, mr + 1)) ∧
    ((∀ i, ∃ msg, f i = .raised (.retryableError msg)) →
      retry_with_backoff mr defaultRetryable f = (f mr, mr + 1) ∧
      ∃ msg, f mr = .raised (.retryableError msg)) ∧
    (∀ msg, f 0 = .raised (.nonRetryableError msg) →
      retry_with_backoff mr defaultRetryable f = (.raised (.nonRetryableError msg), 1)) ∧
    (∀ msg, f 0 = .raised (.validationError msg) →
      retry_with_backoff mr defaultRetryable f = (.raised (.validationError msg), 1)) := by
  refine ⟨?_, ?_, ?_, ?_⟩
  · intro v h hok
    unfold retry_with_backoff
    have := retryAux_retry_then_ok mr 0 (by simpa using h) (by simpa using hok)
    simpa using this
  · intro h
    unfold retry_with_backoff
    have := retryAux_all_fail h mr 0
    exact ⟨by simpa using this, h mr⟩
  · intro msg hmsg
    unfold retry_with_backoff retryAux
    simp only [hmsg, nonretryable_not_retryable msg, Bool.false_eq_true, if_false]
  · intro msg hmsg
    unfold retry_with_backoff retryAux
    simp only [hmsg, validation_not_retryable msg, Bool.false_eq_true, if_false]

/-- Witness for C1 at concrete operations with `max_retries = 2`. -/
theorem c1_retry_wrapper_witness :
    retry_with_backoff 2 defaultRetryable
      (fun i => if i < 2 then .raised (.retryableError "throttled") else .ok 7) = (.ok 7, 3) ∧
    retry_with_backoff 2 defaultRetryable
      (fun _ : ℕ => (.raised (.retryableError "down") : PyResult ℕ)) =
      (.raised (.retryableError "down"), 3) ∧
    retry_with_backoff 2 defaultRetryable
      (fun _ : ℕ => (.raised (.nonRetryableError "bad doc") : PyResult ℕ)) =
      (.raised (.nonRetryableError "bad doc"), 1) ∧
    retry_with_backoff 2 defaultRetryable
      (fun _ : ℕ => (.raised (.validationError "bad input") : PyResult ℕ)) =
      (.raised (.validationError "bad input"), 1) := by
  refine ⟨?_, ?_, ?_, ?_⟩
  · exact (c1_retry_wrapper 2 _).1 7
      (by intro i hi; interval_cases i <;> exact ⟨"throttled", rfl⟩) rfl
  · exact ((c1_retry_wrapper 2
      (fun _ : ℕ => (.raised (.retryableError "down") : PyResult ℕ))).2.1
      (fun _ => ⟨"down", rfl⟩)).1
  · exact (c1_retry_wrapper 2 _).2.2.1 "bad doc" rfl
  · exact (c1_retry_wrapper 2 _).2.2.2 "bad input" rfl

/-! ## Claim C2: the circuit breaker state machine -/

/-- The configuration is immutable and an `OPEN` breaker always has a stamped
failure time and a count at or above the threshold. -/
def CBInv (ft : ℕ) (rt : ℚ) (cb : CircuitBreaker) : Prop :=
  cb.failure_threshold = ft ∧ cb.recovery_timeout = rt ∧
  (cb.state = .OPEN → (∃ lf, cb.last_failure_time = some lf) ∧ ft ≤ cb.failure_count)

theorem call_preserves_inv {ft : ℕ} {rt : ℚ} {cb cb' : CircuitBreaker} {t : ℚ}
    {o : PyResult Unit} {res : PyResult Unit × Bool}
    (hinv : CBInv ft rt cb) (hc : cb.call t o = some (res, cb')) : CBInv ft rt cb' := by
  obtain ⟨hft, hrt, hop⟩ := hinv
  unfold CircuitBreaker.call at hc
  by_cases hs : cb.state = .OPEN
  · rw [if_pos hs] at hc
    cases hlf : cb.last_failure_time with
    | none => rw [hlf] at hc; cases hc
    | some lf =>
        simp only [hlf] at hc
        by_cases ht : cb.recovery_timeout < t - lf
        · rw [if_pos ht] at hc
          cases o with
          | ok v =>
              simp only [invokeStep, Option.some.injEq, Prod.mk.injEq] at hc
              obtain ⟨-, hcb'⟩ := hc
              subst hcb'
              refine ⟨hft, hrt, fun hs' => ?_⟩
              simp [CircuitBreaker.onSuccess] at hs'
          | raised e =>
              simp only [invokeStep, Option.some.injEq, Prod.mk.injEq] at hc
              obtain ⟨-, hcb'⟩ := hc
              subst hcb'
              refine ⟨hft, hrt, fun _ => ?_⟩
              have hcnt := (hop hs).2
              unfold CircuitBreaker.onFailure
              refine ⟨⟨t, rfl⟩, ?_⟩
              simp only
              omega
        · rw [if_neg ht] at hc
          simp only [Option.some.injEq, Prod.mk.injEq] at hc
          obtain ⟨-, hcb'⟩ := hc
          subst hcb'
          exact ⟨hft, hrt, hop⟩
  · rw [if_neg hs] at hc
    cases o with
    | ok v =>
        simp only [invokeStep, Option.some.injEq, Prod.mk.injEq] at hc
        obtain ⟨-, hcb'⟩ := hc
        subst hcb'
        refine ⟨hft, hrt, fun hs' => ?_⟩
        unfold CircuitBreaker.onSuccess at hs'
        simp only at hs'
        by_cases hho : cb.state = .HALF_OPEN
        · rw [if_pos hho] at hs'; cases hs'
        · rw [if_neg hho] at hs'
          exact absurd hs' hs
    | raised e =>
        simp only [invokeStep, Option.some.injEq, Prod.mk.injEq] at hc
        obtain ⟨-, hcb'⟩ := hc
        subst hcb'
        refine ⟨hft, hrt, fun hs' => ?_⟩
        unfold CircuitBreaker.onFailure at hs' ⊢
        simp only at hs' ⊢
        by_cases hth : cb.failure_threshold ≤ cb.failure_count + 1
        · exact ⟨⟨t, rfl⟩, by rw [← hft]; simpa using hth⟩
        · rw [if_neg hth] at hs'
          exact absurd hs' hs

theorem reachable_invariant {ft : ℕ} {rt : ℚ} {cb : CircuitBreaker}
    (h : Reachable ft rt cb) : CBInv ft rt cb := by
  induction h with
  | init =>
      refine ⟨rfl, rfl, fun hs => ?_⟩
      simp [initCB] at hs
  | step hr hc ih => exact call_preserves_inv ih hc

/-- C2.  The circuit breaker, stepped one guarded call at a time from its
initial state: from `CLOSED`, a success keeps it `CLOSED` and resets the
failure count to 0, and a failure increments the count (stamping the failure
time) and moves to `OPEN` exactly when the count reaches `failure_threshold`;
while `OPEN`, before `recovery_timeout` has elapsed (strictly) since the last
failure, a call fails immediately with the breaker untouched and the wrapped
function not invoked; once `recovery_timeout` has elapsed the breaker passes
through the transient `HALF_OPEN` state and the next call is attempted — a
success yields `CLOSED` with `failure_count = 0`, a failure returns it to
`OPEN` with the failure clock reset to the current time. -/
theorem c2_circuit_breaker (ft : ℕ) (rt : ℚ) (cb : CircuitBreaker)
    (hr : Reachable ft rt cb) (t : ℚ) :
    (cb.state = .CLOSED →
      ∃ cb', cb.call t (.ok ()) = some ((.ok (), true), cb') ∧
        cb'.failure_count = 0 ∧ cb'.state = .CLOSED) ∧
    (cb.state = .CLOSED → ∀ e,
      ∃ cb', cb.call t (.raised e) = some ((.raised e, true), cb') ∧
        cb'.failure_count = cb.failure_count + 1 ∧
        cb'.last_failure_time = some t ∧
        (cb'.state = .OPEN ↔ ft ≤ cb.failure_count + 1)) ∧
    (cb.state = .OPEN →
      ∃ lf, cb.last_failure_time = some lf ∧
        (t - lf ≤ rt →
          ∀ o, cb.call t o = some ((.raised (.genericException circuitOpenMsg), false), cb)) ∧
        (rt < t - lf →
          (∃ cb', cb.call t (.ok ()) = some ((.ok (), true), cb') ∧
            cb'.state = .CLOSED ∧ cb'.failure_count = 0) ∧
          (∀ e, ∃ cb', cb.call t (.raised e) = some ((.raised e, true), cb') ∧
            cb'.state = .OPEN ∧ cb'.last_failure_time = some t))) := by
  obtain ⟨hft, hrt, hop⟩ := reachable_invariant hr
  refine ⟨?_, ?_, ?_⟩
  · intro hs
    refine ⟨cb.onSuccess, ?_, rfl, ?_⟩
    · unfold CircuitBreaker.call
      rw [if_neg (by rw [hs]; exact fun h => by cases h)]
      rfl
    · unfold CircuitBreaker.onSuccess
      simp only
      rw [if_neg (by rw [hs]; exact fun h => by cases h), hs]
  · intro hs e
    refine ⟨cb.onFailure t, ?_, rfl, rfl, ?_⟩
    · unfold CircuitBreaker.call
      rw [if_neg (by rw [hs]; exact fun h => by cases h)]
      rfl
    · unfold CircuitBreaker.onFailure
      simp only
      rw [hft]
      by_cases hth : ft ≤ cb.failure_count + 1
      · rw [if_pos hth]
        simp [hth]
      · rw [if_neg hth, hs]
        simp [hth]
  · intro hs
    obtain ⟨⟨lf, hlf⟩, hcnt⟩ := hop hs
    refine ⟨lf, hlf, ?_, ?_⟩
    · intro hle o
      unfold CircuitBreaker.call
      rw [if_pos hs]
      simp only [hlf]
      rw [if_neg (by rw [hrt]; exact not_lt.2 hle)]
    · intro hgt
      constructor
      · have hcallEq : cb.call t (.ok ()) = some ((.ok (), true),
            ({ failure_threshold := cb.failure_threshold,
               recovery_timeout := cb.recovery_timeout,
               failure_count := cb.failure_count,
               last_failure_time := some lf,
               state := CBState.HALF_OPEN } : CircuitBreaker).onSuccess) := by
          unfold CircuitBreaker.call
          rw [if_pos hs]
          simp only [hlf]
          rw [if_pos (by rw [hrt]; exact hgt)]
          rfl
        refine ⟨_, hcallEq, rfl, rfl⟩
      · intro e
        have hcallEq : cb.call t (.raised e) = some ((.raised e, true),
            ({ failure_threshold := cb.failure_threshold,
               recovery_timeout := cb.recovery_timeout,
               failure_count := cb.failure_count,
               last_failure_time := some lf,
               state := CBState.HALF_OPEN } : CircuitBreaker).onFailure t) := by
          unfold CircuitBreaker.call
          rw [if_pos hs]
          simp only [hlf]
          rw [if_pos (by rw [hrt]; exact hgt)]
          rfl
        refine ⟨_, hcallEq, ?_, rfl⟩
        show (if cb.failure_threshold ≤ cb.failure_count + 1 then CBState.OPEN
              else CBState.HALF_OPEN) = CBState.OPEN
        rw [if_pos (by rw [hft]; omega)]

/-- Witness for C2: a breaker constructed with threshold 1 and timeout 10
opens on its first failure at time 0, fails fast at time 5 without invoking
the function, and at time 11 attempts the call and closes on success. -/
theorem c2_circuit_breaker_witness :
    ∃ cb1, (initCB 1 10).call 0 (.raised (.genericException "boom")) =
        some ((.raised (.genericException "boom"), true), cb1) ∧
      cb1.failure_count = 0 + 1 ∧ (cb1.state = .OPEN ↔ 1 ≤ 0 + 1) ∧
      (∀ o, cb1.call 5 o =
        some ((.raised (.genericException circuitOpenMsg), false), cb1)) ∧
      (∃ cb2, cb1.call 11 (.ok ()) = some ((.ok (), true), cb2) ∧
        cb2.state = .CLOSED ∧ cb2.failure_count = 0) := by
  have h0 := c2_circuit_breaker 1 10 (initCB 1 10) Reachable.init 0
  obtain ⟨cb1, hcall, hcnt, hlast, hiff⟩ := h0.2.1 rfl (.genericException "boom")
  have hreach : Reachable 1 10 cb1 := Reachable.step Reachable.init hcall
  have hopen : cb1.state = .OPEN := hiff.2 (by omega)
  refine ⟨cb1, hcall, hcnt, hiff, ?_, ?_⟩
  · intro o
    obtain ⟨lf, hlf, hfast, _⟩ := (c2_circuit_breaker 1 10 cb1 hreach 5).2.2 hopen
    have hlf0 : lf = 0 := by
      rw [hlast] at hlf
      exact (Option.some.inj hlf).symm
    exact hfast (by rw [hlf0]; norm_num) o
  · obtain ⟨lf, hlf, _, hrec⟩ := (c2_circuit_breaker 1 10 cb1 hreach 11).2.2 hopen
    have hlf0 : lf = 0 := by
      rw [hlast] at hlf
      exact (Option.some.inj hlf).symm
    exact (hrec (by rw [hlf0]; norm_num)).1

/-! ## Claim C8: the kind of a fail-fast failure -/

theorem cb_open_fail_fast {cb : CircuitBreaker} {t lf : ℚ} (hs : cb.state = .OPEN)
    (hlf : cb.last_failure_time = some lf) (hle : ¬ cb.recovery_timeout < t - lf)
    (o : PyResult Unit) :
    cb.call t o = some ((.raised (.genericException circuitOpenMsg), false), cb) := by
  unfold CircuitBreaker.call
  rw [if_pos hs]
  simp only [hlf]
  rw [if_neg hle]

/-- C8 (amended).  A call attempted while the breaker is `OPEN` before the
recovery timeout has elapsed does fail immediately without invoking the
wrapped function — but the failure is a plain generic
`Exception("Circuit breaker is OPEN - service unavailable")`, which is not
one of the taxonomy kinds the code defines (`RetryableError`,
`NonRetryableError`, `ValidationError`); no `CircuitOpenError` class exists
anywhere in the repository. -/
theorem c8_open_failure_generic (ft : ℕ) (rt : ℚ) (cb : CircuitBreaker)
    (hr : Reachable ft rt cb) (t : ℚ) (o : PyResult Unit) (hs : cb.state = .OPEN)
    {lf : ℚ} (hlf : cb.last_failure_time = some lf) (hle : t - lf ≤ rt) :
    cb.call t o = some ((.raised (.genericException circuitOpenMsg), false), cb) ∧
    isTaxonomyKind (.genericException circuitOpenMsg) = false := by
  refine ⟨?_, rfl⟩
  have hinv := reachable_invariant hr
  exact cb_open_fail_fast hs hlf (by rw [hinv.2.1]; exact not_lt.2 hle) o

/-- Witness for the amended C8 on a concrete open breaker. -/
theorem c8_open_failure_generic_witness :
    ∃ cb1, Reachable 1 10 cb1 ∧ cb1.state = .OPEN ∧
      cb1.call 5 (.ok ()) =
        some ((.raised (.genericException circuitOpenMsg), false), cb1) ∧
      isTaxonomyKind (.genericException circuitOpenMsg) = false := by
  have hcall : (initCB 1 10).call 0 (.raised (.genericException "boom")) =
      some ((.raised (.genericException "boom"), true), (initCB 1 10).onFailure 0) := rfl
  have hreach : Reachable 1 10 ((initCB 1 10).onFailure 0) :=
    Reachable.step Reachable.init hcall
  have hstate : ((initCB 1 10).onFailure 0).state = .OPEN := rfl
  have hlf : ((initCB 1 10).onFailure 0).last_failure_time = some 0 := rfl
  have h := c8_open_failure_generic 1 10 _ hreach 5 (.ok ()) hstate hlf (by norm_num)
  exact ⟨_, hreach, hstate, h.1, h.2⟩

/-- Counterexample to C8 as stated: a reachable breaker produces a
caller-facing failure (`Exception("Circuit breaker is OPEN - service
unavailable")`) that is not one of the four taxonomy kinds — in particular
there is no `CircuitOpenError` kind. -/
theorem c8_counterexample :
    ∃ cb1, Reachable 1 10 cb1 ∧
      cb1.call 5 (.ok ()) =
        some ((.raised (.genericException circuitOpenMsg), false), cb1) ∧
      isTaxonomyKind (.genericException circuitOpenMsg) = false ∧
      circuitOpenMsg = "Circuit breaker is OPEN - service unavailable" := by
  have hcall : (initCB 1 10).call 0 (.raised (.genericException "boom")) =
      some ((.raised (.genericException "boom"), true), (initCB 1 10).onFailure 0) := rfl
  have hreach : Reachable 1 10 ((initCB 1 10).onFailure 0) :=
    Reachable.step Reachable.init hcall
  refine ⟨_, hreach, ?_, rfl, rfl⟩
  exact cb_open_fail_fast rfl rfl (by norm_num [initCB, CircuitBreaker.onFailure]) _

/-! ## Claim C3: reconciler policy on the amount field -/

theorem dictGet_none_notin {d : PyDict} {k : String} (h : dictGet d k = Option.none) :
    k ∉ d.map Prod.fst := by
  intro hmem
  obtain ⟨e, he, hk⟩ := List.mem_map.1 hmem
  unfold dictGet at h
  rw [Option.map_eq_none'] at h
  rw [List.find?_eq_none] at h
  exact h e he (by simpa using hk)

theorem passes_amount_false {v : PyVal}
    (hv : toNum v = Option.none ∨ ∃ q, toNum v = some q ∧ q.toQ ≤ 0) :
    passes "amount" v = false := by
  unfold passes
  rw [if_pos rfl]
  rcases hv with h | ⟨q, hq, hle⟩
  · simp only [h]
    simp
  · simp only [hq]
    have hq0 : q.posB = false := by
      rw [← Bool.not_eq_true, Dec.posB_iff]
      exact not_lt.2 hle
    rw [hq0]
    simp

/-- C3.  If the AI mapping's `extraction_method` is the failure sentinel
`bedrock_failed`, the reconciler returns the rule-based record unchanged.
Otherwise, when the rule-based amount is a (necessarily positive) number and
the AI candidate amount is zero, negative, or non-numeric, the merged amount
equals the rule-based amount, the merged `extraction_method` is
`hybrid_ai_rules`, and `confidence` is `high` exactly when the AI
`extraction_method` is `bedrock_ai`, else `medium`. -/
theorem c3_reconciler (text : String) (kvp : List (String × String)) (ai : PyDict)
    (hnd : (ai.map Prod.fst).Nodup) :
    (dictGet ai "extraction_method" = some (.str "bedrock_failed") →
      merge_extraction_results (extract_with_rules text kvp) ai
        = extract_with_rules text kvp) ∧
    (∀ ms : String, dictGet ai "extraction_method" = some (.str ms) →
     ms ≠ "bedrock_failed" →
     ∀ a : Dec, dictGet (extract_with_rules text kvp) "amount" = some (.num a) →
     0 < a.toQ →
     (∀ v, dictGet ai "amount" = some v →
        toNum v = Option.none ∨ ∃ q, toNum v = some q ∧ q.toQ ≤ 0) →
     dictGet (merge_extraction_results (extract_with_rules text kvp) ai) "amount"
         = some (.num a) ∧
     dictGet (merge_extraction_results (extract_with_rules text kvp) ai)
         "extraction_method" = some (.str "hybrid_ai_rules") ∧
     dictGet (merge_extraction_results (extract_with_rules text kvp) ai) "confidence"
         = some (.str (if ms = "bedrock_ai" then "high" else "medium"))) := by
  constructor
  · intro hfail
    unfold merge_extraction_results
    rw [if_pos hfail]
  · intro ms hms hne a hamt _ hai
    have hnf : ¬ dictGet ai "extraction_method" = some (.str "bedrock_failed") := by
      rw [hms]
      intro h
      simp only [Option.some.injEq, PyVal.str.injEq] at h
      exact hne h
    unfold merge_extraction_results
    rw [if_neg hnf]
    refine ⟨?_, ?_, ?_⟩
    · rw [dictGet_dictSet_ne _ _ (by decide)]
      cases hga : dictGet ai "amount" with
      | none =>
          rw [foldl_mergeStep_notin (dictGet_none_notin hga)]
          exact hamt
      | some v =>
          have hmem := dictGet_some_mem hga
          rw [foldl_mergeStep_mem hnd hmem]
          rw [if_neg (by decide), if_neg (by rw [passes_amount_false (hai v hga)]; decide)]
          exact hamt
    · rw [dictGet_dictSet_ne _ _ (by decide)]
      have hmem := dictGet_some_mem hms
      rw [foldl_mergeStep_mem hnd hmem, if_pos rfl]
    · rw [dictGet_dictSet_self]
      rw [hms]
      by_cases hb : ms = "bedrock_ai"
      · rw [if_pos hb, if_pos (by rw [hb])]
      · rw [if_neg hb, if_neg (by intro h; exact hb (by
          simpa using h))]

/-- Witness for C3 at concrete inputs: a failed AI pass leaves the record
unchanged; a succeeding AI pass with a non-numeric amount candidate keeps
the rule-based amount, marks the record hybrid and sets high confidence. -/
theorem c3_reconciler_witness :
    merge_extraction_results (extract_with_rules "" [("total", "$5")])
        [("extraction_method", .str "bedrock_failed"), ("amount", .num ⟨7, 0⟩)]
      = extract_with_rules "" [("total", "$5")] ∧
    dictGet (merge_extraction_results (extract_with_rules "" [("total", "$5")])
        [("extraction_method", .str "bedrock_ai"), ("amount", .str "oops")]) "amount"
      = some (.num ⟨5, 0⟩) ∧
    dictGet (merge_extraction_results (extract_with_rules "" [("total", "$5")])
        [("extraction_method", .str "bedrock_ai"), ("amount", .str "oops")])
        "extraction_method" = some (.str "hybrid_ai_rules") ∧
    dictGet (merge_extraction_results (extract_with_rules "" [("total", "$5")])
        [("extraction_method", .str "bedrock_ai"), ("amount", .str "oops")]) "confidence"
      = some (.str "high") := by
  have h1 := (c3_reconciler "" [("total", "$5")]
      [("extraction_method", .str "bedrock_failed"), ("amount", .num ⟨7, 0⟩)]
      (by decide)).1 (by decide)
  have h2 := (c3_reconciler "" [("total", "$5")]
      [("extraction_method", .str "bedrock_ai"), ("amount", .str "oops")]
      (by decide)).2 "bedrock_ai" (by decide) (by decide) ⟨5, 0⟩ (by decide)
      (by norm_num [Dec.toQ, pow10])
      (by
        intro v hv
        have : some (PyVal.str "oops") = some v := by
          rw [← hv]; decide
        left
        rw [← Option.some.inj this]
        rfl)
  exact ⟨h1, h2.1, h2.2.1, by simpa using h2.2.2⟩

/-! ## Claim C10: reconciliation never deletes or blanks a rule-based field -/

theorem dictGet_isSome_of_mem_keys {d : PyDict} {k : String}
    (h : k ∈ d.map Prod.fst) : ∃ v, dictGet d k = some v := by
  obtain ⟨e, he, hk⟩ := List.mem_map.1 h
  induction d with
  | nil => cases he
  | cons e0 rest ih =>
      by_cases h0 : e0.1 = k
      · exact ⟨e0.2, dictGet_cons_self h0⟩
      · rcases List.mem_cons.1 he with h1 | h1
        · exact absurd (h1 ▸ hk) h0
        · obtain ⟨v, hv⟩ := ih (List.mem_map.2 ⟨e, h1, hk⟩) h1
          exact ⟨v, (dictGet_cons_ne h0).trans hv⟩

theorem mergeStep_pres_some {k : String} (m : PyDict) (e : String × PyVal)
    (h : ∃ v, dictGet m k = some v) : ∃ v, dictGet (mergeStep m e) k = some v := by
  obtain ⟨v, hv⟩ := h
  by_cases he : e.1 = k
  · unfold mergeStep
    by_cases h1 : e.1 = "extraction_method"
    · rw [if_pos h1]
      refine ⟨.str "hybrid_ai_rules", ?_⟩
      rw [← he]
      exact dictGet_dictSet_self m e.1 _
    · rw [if_neg h1]
      by_cases h2 : passes e.1 e.2 = true
      · rw [if_pos h2]
        refine ⟨transform e.1 e.2, ?_⟩
        rw [← he]
        exact dictGet_dictSet_self m e.1 _
      · rw [if_neg h2]
        exact ⟨v, hv⟩
  · exact ⟨v, (dictGet_mergeStep_ne he).trans hv⟩

/-- C10.  The reconciler's output contains every key of the rule-based
record, and every rule-based field other than `extraction_method` for which
the AI mapping offers no candidate passing its validity check keeps exactly
its rule-based value: reconciliation only overwrites, it never deletes or
blanks a field. -/
theorem c10_frame (text : String) (kvp : List (String × String)) (ai : PyDict)
    (hnd : (ai.map Prod.fst).Nodup) :
    ∀ k, k ∈ (extract_with_rules text kvp).map Prod.fst →
      (∃ v, dictGet (merge_extraction_results (extract_with_rules text kvp) ai) k
          = some v) ∧
      (k ≠ "extraction_method" →
        (∀ v, dictGet ai k = some v → passes k v = false) →
        dictGet (merge_extraction_results (extract_with_rules text kvp) ai) k
          = dictGet (extract_with_rules text kvp) k) := by
  intro k hk
  have hkeys : (extract_with_rules text kvp).map Prod.fst =
      ["vendor", "amount", "date", "invoice_number", "tax_amount", "currency",
       "line_items", "extraction_method"] := rfl
  have hkconf : k ≠ "confidence" := by
    rw [hkeys] at hk
    fin_cases hk <;> decide
  unfold merge_extraction_results
  by_cases hfail : dictGet ai "extraction_method" = some (.str "bedrock_failed")
  · rw [if_pos hfail]
    exact ⟨dictGet_isSome_of_mem_keys hk, fun _ _ => rfl⟩
  · rw [if_neg hfail]
    constructor
    · obtain ⟨v, hv⟩ := dictGet_isSome_of_mem_keys hk
      obtain ⟨v', hv'⟩ :=
        foldl_mergeStep_pres (fun m => ∃ v, dictGet m k = some v)
          mergeStep_pres_some ai _ ⟨v, hv⟩
      by_cases hc : k = "confidence"
      · exact absurd hc hkconf
      · exact ⟨v', by
          rw [dictGet_dictSet_ne _ _ (fun h => hkconf h.symm)]
          exact hv'⟩
    · intro hne hnopass
      rw [dictGet_dictSet_ne _ _ (fun h => hkconf h.symm)]
      cases hga : dictGet ai k with
      | none => exact foldl_mergeStep_notin (dictGet_none_notin hga) _
      | some v =>
          rw [foldl_mergeStep_mem hnd (dictGet_some_mem hga),
              if_neg hne, if_neg (by rw [hnopass v hga]; decide)]

/-- Witness for C10: an AI mapping offering a zero amount (which fails the
validity check) leaves the rule-based amount untouched, and every rule key
is still present. -/
theorem c10_frame_witness :
    (∃ v, dictGet (merge_extraction_results (extract_with_rules "" [("total", "$5")])
        [("extraction_method", .str "bedrock_ai"), ("amount", .num ⟨0, 0⟩)]) "amount"
        = some v) ∧
    dictGet (merge_extraction_results (extract_with_rules "" [("total", "$5")])
        [("extraction_method", .str "bedrock_ai"), ("amount", .num ⟨0, 0⟩)]) "amount"
      = dictGet (extract_with_rules "" [("total", "$5")]) "amount" := by
  have h := c10_frame "" [("total", "$5")]
      [("extraction_method", .str "bedrock_ai"), ("amount", .num ⟨0, 0⟩)]
      (by decide) "amount" (by decide)
  refine ⟨h.1, h.2 (by decide) ?_⟩
  intro v hv
  have hv' : some (PyVal.num ⟨0, 0⟩) = some v := by rw [← hv]; decide
  rw [← Option.some.inj hv']
  decide

/-! ## Claim C5: record invariants -/

theorem daysInMonth_le_31 (y m : ℕ) : daysInMonth y m ≤ 31 := by
  unfold daysInMonth
  split_ifs <;> omega

theorem ccSearch_mem {code : String} :
    ∀ {prev : Option Char} {s : List Char}, ccSearch prev s = some code →
      code ∈ currencyCodes := by
  intro prev s
  induction s generalizing prev with
  | nil => intro h; cases h
  | cons c t ih =>
      intro h
      rw [ccSearch] at h
      cases hf : currencyCodes.find? (ccPred prev (c :: t)) with
      | some c0 =>
          rw [hf] at h
          cases h
          exact List.mem_of_find?_eq_some hf
      | none =>
          rw [hf] at h
          exact ih h

/-- Model of `extract_currency` is always a nonempty string. -/
theorem extract_currency_ne (text : String) : extract_currency text ≠ "" := by
  unfold extract_currency
  simp only
  split_ifs <;> try decide
  cases hcc : ccSearch Option.none text.data with
  | some code =>
      simp only [hcc]
      have := ccSearch_mem hcc
      fin_cases this <;> decide
  | none => simp only [hcc]; decide

/-- Every `extract_date` result is a `parse_date` output. -/
theorem extract_date_sound {text : String} {kvp : List (String × String)} {s : String}
    (h : extract_date text kvp = some s) :
    ∃ y m d, ValidYMD y m d ∧ s = isoFmt y m d := by
  unfold extract_date at h
  cases hk : (firstSome dateKeys fun key =>
      firstSome kvp fun e =>
        if occursIn (lowerL key.data) (lowerL e.1.data) = true then parse_date e.2
        else none) with
  | some d =>
      rw [hk] at h
      cases h
      refine firstSome_pred (fun s : String => ∃ y m d, ValidYMD y m d ∧ s = isoFmt y m d)
        ?_ hk
      intro key b hb
      refine firstSome_pred (fun s : String => ∃ y m d, ValidYMD y m d ∧ s = isoFmt y m d)
        ?_ hb
      intro e c hc
      by_cases hocc : occursIn (lowerL key.data) (lowerL e.1.data) = true
      · rw [if_pos hocc] at hc
        exact parse_date_sound hc
      · rw [if_neg hocc] at hc; cases hc
  | none =>
      rw [hk] at h
      refine firstSome_pred (fun s : String => ∃ y m d, ValidYMD y m d ∧ s = isoFmt y m d)
        ?_ h
      intro p b hb
      refine firstSome_pred (fun s : String => ∃ y m d, ValidYMD y m d ∧ s = isoFmt y m d)
        ?_ hb
      intro mch c hc
      exact parse_date_sound hc

theorem passes_amount_elim {v : PyVal} (h : passes "amount" v = true) :
    ∃ q, toNum v = some q ∧ q.posB = true := by
  unfold passes at h
  rw [if_pos rfl] at h
  cases ht : toNum v with
  | none => rw [ht] at h; simp at h
  | some q =>
      rw [ht] at h
      simp only [Bool.and_eq_true] at h
      exact ⟨q, rfl, h.2⟩

theorem passes_tax_elim {v : PyVal} (h : passes "tax_amount" v = true) :
    ∃ q, toNum v = some q ∧ q.nonnegB = true := by
  unfold passes at h
  rw [if_neg (by decide), if_pos rfl] at h
  cases ht : toNum v with
  | none => rw [ht] at h; simp at h
  | some q =>
      rw [ht] at h
      simp only [Bool.and_eq_true] at h
      exact ⟨q, rfl, h.2⟩

theorem passes_date_elim {v : PyVal} (h : passes "date" v = true) :
    ∃ s, v = .str s ∧ isoLeadsS s = true := by
  unfold passes at h
  rw [if_neg (by decide), if_neg (by decide), if_pos rfl] at h
  cases v with
  | str s =>
      simp only [Bool.and_eq_true] at h
      exact ⟨s, rfl, h.2.2⟩
  | none => simp at h
  | bool b => simp at h
  | num d => simp at h
  | items l => simp at h

theorem passes_currency_elim {v : PyVal} (h : passes "currency" v = true) :
    ∃ s, v = .str s ∧ 1 < (pyStripL s.data).length := by
  unfold passes at h
  rw [if_neg (by decide), if_neg (by decide), if_neg (by decide), if_pos (by decide)] at h
  cases v with
  | str s =>
      simp only [Bool.and_eq_true, decide_eq_true_eq] at h
      exact ⟨s, rfl, h.2⟩
  | none => simp at h
  | bool b => simp at h
  | num d => simp at h
  | items l => simp at h

theorem transform_amount {v : PyVal} {q : Dec} (h : toNum v = some q) :
    transform "amount" v = .num q := by
  unfold transform
  rw [if_pos (by decide), h]

theorem transform_tax {v : PyVal} {q : Dec} (h : toNum v = some q) :
    transform "tax_amount" v = .num q := by
  unfold transform
  rw [if_pos (by decide), h]

theorem transform_date (v : PyVal) : transform "date" v = v := by
  unfold transform
  rw [if_neg (by decide), if_pos rfl]

theorem transform_currency (s : String) :
    transform "currency" (.str s) = .str (String.mk (pyStripL s.data)) := by
  unfold transform
  rw [if_neg (by decide), if_neg (by decide)]

theorem strMk_ne_empty {l : List Char} (h : l ≠ []) : String.mk l ≠ "" := by
  intro he
  apply h
  have h2 : String.mk l = String.mk [] := he
  exact congrArg String.data h2

theorem mergeStep_pres_amountQ :
    ∀ (m : PyDict) (e : String × PyVal),
      (∀ a : Dec, dictGet m "amount" = some (.num a) → 0 < a.toQ) →
      (∀ a : Dec, dictGet (mergeStep m e) "amount" = some (.num a) → 0 < a.toQ) := by
  intro m e hm a ha
  by_cases he : e.1 = "amount"
  · unfold mergeStep at ha
    rw [if_neg (by rw [he]; decide)] at ha
    by_cases hp : passes e.1 e.2 = true
    · rw [if_pos hp, he] at ha
      rw [he] at hp
      obtain ⟨q, hq, hpos⟩ := passes_amount_elim hp
      rw [transform_amount hq, dictGet_dictSet_self] at ha
      simp only [Option.some.injEq, PyVal.num.injEq] at ha
      exact ha ▸ (Dec.posB_iff q).1 hpos
    · rw [if_neg hp] at ha
      exact hm a ha
  · rw [dictGet_mergeStep_ne he] at ha
    exact hm a ha

theorem mergeStep_pres_taxQ :
    ∀ (m : PyDict) (e : String × PyVal),
      (∀ a : Dec, dictGet m "tax_amount" = some (.num a) → 0 ≤ a.toQ) →
      (∀ a : Dec, dictGet (mergeStep m e) "tax_amount" = some (.num a) → 0 ≤ a.toQ) := by
  intro m e hm a ha
  by_cases he : e.1 = "tax_amount"
  · unfold mergeStep at ha
    rw [if_neg (by rw [he]; decide)] at ha
    by_cases hp : passes e.1 e.2 = true
    · rw [if_pos hp, he] at ha
      rw [he] at hp
      obtain ⟨q, hq, hnn⟩ := passes_tax_elim hp
      rw [transform_tax hq, dictGet_dictSet_self] at ha
      simp only [Option.some.injEq, PyVal.num.injEq] at ha
      exact ha ▸ (Dec.nonnegB_iff q).1 hnn
    · rw [if_neg hp] at ha
      exact hm a ha
  · rw [dictGet_mergeStep_ne he] at ha
    exact hm a ha

theorem mergeStep_pres_currencyQ :
    ∀ (m : PyDict) (e : String × PyVal),
      (∃ c, dictGet m "currency" = some (.str c) ∧ c ≠ "") →
      (∃ c, dictGet (mergeStep m e) "currency" = some (.str c) ∧ c ≠ "") := by
  intro m e hm
  by_cases he : e.1 = "currency"
  · unfold mergeStep
    rw [if_neg (by rw [he]; decide)]
    by_cases hp : passes e.1 e.2 = true
    · rw [if_pos hp, he]
      rw [he] at hp
      obtain ⟨s, hv, hlen⟩ := passes_currency_elim hp
      rw [hv, transform_currency]
      refine ⟨String.mk (pyStripL s.data), dictGet_dictSet_self _ _ _, ?_⟩
      exact strMk_ne_empty (by intro h0; rw [h0] at hlen; simp at hlen)
    · rw [if_neg hp]
      exact hm
  · obtain ⟨c, hc, hne⟩ := hm
    exact ⟨c, (dictGet_mergeStep_ne he).trans hc, hne⟩

theorem mergeStep_pres_dateQ (P : String → Prop)
    (hP : ∀ s, isoLeadsS s = true → 10 ≤ s.length → P s) :
    ∀ (m : PyDict) (e : String × PyVal),
      (∀ s, dictGet m "date" = some (.str s) → P s) →
      (∀ s, dictGet (mergeStep m e) "date" = some (.str s) → P s) := by
  intro m e hm s hs
  by_cases he : e.1 = "date"
  · unfold mergeStep at hs
    rw [if_neg (by rw [he]; decide)] at hs
    by_cases hp : passes e.1 e.2 = true
    · rw [if_pos hp, he] at hs
      rw [he] at hp
      obtain ⟨s0, hv, hiso⟩ := passes_date_elim hp
      rw [hv, transform_date, dictGet_dictSet_self] at hs
      simp only [Option.some.injEq, PyVal.str.injEq] at hs
      rw [← hs]
      exact hP s0 hiso (isoLeadsL_length hiso)
    · rw [if_neg hp] at hs
      exact hm s hs
  · rw [dictGet_mergeStep_ne he] at hs
    exact hm s hs

/-- C5 (amended).  For every rule-based record: `amount` and `tax_amount`,
when present, are strictly positive (hence non-negative); `currency` is
always a nonempty string; `date`, when present, is the ISO rendering of a
valid calendar date (year between 1 and 9999) and matches `YYYY-MM-DD`
exactly whenever the year has four digits (`strftime` leaves smaller years
unpadded).  For every reconciled record: `amount`, when present, is strictly
positive; `tax_amount`, when present, is non-negative; `currency` is always
a nonempty string; and `date`, when present, either equals the rule-based
date or is an AI candidate of length at least 10 whose first ten characters
match `YYYY-MM-DD` (the reconciler's check is only a prefix match, so
trailing characters may remain). -/
theorem c5_invariants (text : String) (kvp : List (String × String)) (ai : PyDict) :
    (∀ a : Dec, dictGet (extract_with_rules text kvp) "amount" = some (.num a) →
       0 < a.toQ) ∧
    (∀ a : Dec, dictGet (extract_with_rules text kvp) "tax_amount" = some (.num a) →
       0 < a.toQ) ∧
    (∃ c, dictGet (extract_with_rules text kvp) "currency" = some (.str c) ∧ c ≠ "") ∧
    (∀ s, dictGet (extract_with_rules text kvp) "date" = some (.str s) →
       ∃ y m d, ValidYMD y m d ∧ s = isoFmt y m d ∧ (1000 ≤ y → isoShape s = true)) ∧
    (∀ a : Dec, dictGet (merge_extraction_results (extract_with_rules text kvp) ai)
       "amount" = some (.num a) → 0 < a.toQ) ∧
    (∀ a : Dec, dictGet (merge_extraction_results (extract_with_rules text kvp) ai)
       "tax_amount" = some (.num a) → 0 ≤ a.toQ) ∧
    (∃ c, dictGet (merge_extraction_results (extract_with_rules text kvp) ai)
       "currency" = some (.str c) ∧ c ≠ "") ∧
    (∀ s, dictGet (merge_extraction_results (extract_with_rules text kvp) ai)
       "date" = some (.str s) →
       dictGet (extract_with_rules text kvp) "date" = some (.str s) ∨
       (10 ≤ s.length ∧ isoLeadsS s = true)) := by
  have hRa : ∀ a : Dec, dictGet (extract_with_rules text kvp) "amount" = some (.num a) →
      0 < a.toQ := by
    intro a h
    have hget : dictGet (extract_with_rules text kvp) "amount"
        = some (optNum (extract_amount text kvp)) := rfl
    rw [hget] at h
    cases hX : extract_amount text kvp with
    | none => rw [hX] at h; simp [optNum] at h
    | some v =>
        rw [hX] at h
        simp only [optNum, Option.some.injEq, PyVal.num.injEq] at h
        exact h ▸ (Dec.posB_iff v).1 (extract_amount_pos hX)
  have hRt : ∀ a : Dec, dictGet (extract_with_rules text kvp) "tax_amount" = some (.num a) →
      0 < a.toQ := by
    intro a h
    have hget : dictGet (extract_with_rules text kvp) "tax_amount"
        = some (optNum (extract_tax_amount text)) := rfl
    rw [hget] at h
    cases hX : extract_tax_amount text with
    | none => rw [hX] at h; simp [optNum] at h
    | some v =>
        rw [hX] at h
        simp only [optNum, Option.some.injEq, PyVal.num.injEq] at h
        exact h ▸ (Dec.posB_iff v).1 (extract_tax_amount_pos hX)
  have hRc : ∃ c, dictGet (extract_with_rules text kvp) "currency" = some (.str c) ∧
      c ≠ "" := ⟨extract_currency text, rfl, extract_currency_ne text⟩
  have hRd : ∀ s, dictGet (extract_with_rules text kvp) "date" = some (.str s) →
      ∃ y m d, ValidYMD y m d ∧ s = isoFmt y m d ∧ (1000 ≤ y → isoShape s = true) := by
    intro s h
    have hget : dictGet (extract_with_rules text kvp) "date"
        = some (optStr (extract_date text kvp)) := rfl
    rw [hget] at h
    cases hX : extract_date text kvp with
    | none => rw [hX] at h; simp [optStr] at h
    | some v =>
        rw [hX] at h
        simp only [optStr, Option.some.injEq, PyVal.str.injEq] at h
        obtain ⟨y, m, d, hv, hiso⟩ := extract_date_sound hX
        refine ⟨y, m, d, hv, h ▸ hiso, fun hy => ?_⟩
        rw [← h, hiso]
        obtain ⟨h1, h2, h3, h4, h5, h6⟩ := hv
        exact isoShape_isoFmt hy h2 h3 h4 h5 (h6.trans (daysInMonth_le_31 y m))
  refine ⟨hRa, hRt, hRc, hRd, ?_, ?_, ?_, ?_⟩ <;>
    unfold merge_extraction_results <;>
    (by_cases hfail : dictGet ai "extraction_method" = some (.str "bedrock_failed"))
  · rw [if_pos hfail]; exact hRa
  · rw [if_neg hfail]
    intro a h
    rw [dictGet_dictSet_ne _ _ (by decide)] at h
    exact foldl_mergeStep_pres
      (fun m => ∀ a : Dec, dictGet m "amount" = some (.num a) → 0 < a.toQ)
      mergeStep_pres_amountQ ai _ hRa a h
  · rw [if_pos hfail]
    intro a h
    exact le_of_lt (hRt a h)
  · rw [if_neg hfail]
    intro a h
    rw [dictGet_dictSet_ne _ _ (by decide)] at h
    exact foldl_mergeStep_pres
      (fun m => ∀ a : Dec, dictGet m "tax_amount" = some (.num a) → 0 ≤ a.toQ)
      mergeStep_pres_taxQ ai _ (fun a ha => le_of_lt (hRt a ha)) a h
  · rw [if_pos hfail]; exact hRc
  · rw [if_neg hfail]
    obtain ⟨c, hc, hne⟩ := foldl_mergeStep_pres
      (fun m => ∃ c, dictGet m "currency" = some (.str c) ∧ c ≠ "")
      mergeStep_pres_currencyQ ai _ hRc
    exact ⟨c, by rw [dictGet_dictSet_ne _ _ (by decide)]; exact hc, hne⟩
  · rw [if_pos hfail]
    intro s h
    exact Or.inl h
  · rw [if_neg hfail]
    intro s h
    rw [dictGet_dictSet_ne _ _ (by decide)] at h
    exact foldl_mergeStep_pres
      (fun m => ∀ s, dictGet m "date" = some (.str s) →
        dictGet (extract_with_rules text kvp) "date" = some (.str s) ∨
        (10 ≤ s.length ∧ isoLeadsS s = true))
      (mergeStep_pres_dateQ _ (fun s his hlen => Or.inr ⟨hlen, his⟩))
      ai _ (fun s hs => Or.inl hs) s h

/-- Witness for the amended C5 at concrete inputs. -/
theorem c5_invariants_witness :
    (0 : ℚ) < Dec.toQ ⟨5, 0⟩ ∧
    (∃ c, dictGet (extract_with_rules "" [("total", "$5")]) "currency"
        = some (.str c) ∧ c ≠ "") ∧
    (dictGet (extract_with_rules "" [("total", "$5")]) "date"
        = some (.str "2024-03-15T00") ∨
      (10 ≤ ("2024-03-15T00" : String).length ∧ isoLeadsS "2024-03-15T00" = true)) := by
  have h := c5_invariants "" [("total", "$5")]
      [("extraction_method", .str "bedrock_ai"), ("date", .str "2024-03-15T00")]
  refine ⟨?_, h.2.2.1, ?_⟩
  · exact h.1 ⟨5, 0⟩ (by decide)
  · exact h.2.2.2.2.2.2.2 "2024-03-15T00" (by decide)

/-- Counterexample to C5 as stated: the reconciler accepts the AI date
candidate `"2024-03-15T00"` (a string whose first ten characters match the
shape) and stores it verbatim, so the merged `date` does not match
`YYYY-MM-DD`; independently, on this platform `strftime` renders small years
unpadded, so a rule-based record built from a key-value date `01/03/0005`
stores the date `"5-01-03"`, which also fails the shape. -/
theorem c5_counterexample :
    dictGet (merge_extraction_results (extract_with_rules "" [])
        [("extraction_method", .str "bedrock_ai"), ("date", .str "2024-03-15T00")])
      "date" = some (.str "2024-03-15T00") ∧
    isoShape "2024-03-15T00" = false ∧
    dictGet (extract_with_rules "" [("date", "01/03/0005")]) "date"
      = some (.str "5-01-03") ∧
    isoShape "5-01-03" = false := by
  refine ⟨by decide, by decide, by decide, by decide⟩

/-! ## Claim C6: `parse_currency` round trip -/

theorem digit_not_strip {c : Char} (hc : c.isDigit = true) : isCurrencyStrip c = false := by
  rw [← Bool.not_eq_true]
  intro h
  unfold isCurrencyStrip isPySpace at h
  simp only [Bool.or_eq_true, decide_eq_true_eq, or_assoc] at h
  rcases h with h | h | h | h | h | h | h | h | h | h | h <;> subst h <;>
    exact absurd hc (by decide)

theorem filter_groupRev (p : Char → Bool) (hp : p ',' = false) :
    ∀ l : List Char, (groupRev l).filter p = l.filter p
  | [] => by simp [groupRev]
  | [a] => by simp [groupRev]
  | [a, b] => by simp [groupRev]
  | a :: b :: c :: r => by
      cases r with
      | nil => simp [groupRev]
      | cons d t =>
          have ih := filter_groupRev p hp (d :: t)
          show ((if (d :: t).isEmpty then [a, b, c]
                 else a :: b :: c :: ',' :: groupRev (d :: t)).filter p) = _
          rw [if_neg (by simp)]
          simp only [List.filter_cons, hp, Bool.false_eq_true, if_false, ih]

theorem takeDU_append {a : List Char} (ha : ∀ c ∈ a, (c.isDigit || c = '_') = true)
    {b : Char} (hb : (b.isDigit || b = '_') = false) (bs : List Char) :
    takeDU (a ++ b :: bs) = (a, b :: bs) := by
  induction a with
  | nil =>
      show takeDU (b :: bs) = ([], b :: bs)
      unfold takeDU
      rw [if_neg (by rw [hb]; exact Bool.false_ne_true)]
  | cons c r ih =>
      show takeDU (c :: (r ++ b :: bs)) = (c :: r, b :: bs)
      unfold takeDU
      rw [if_pos (ha c (by simp)), ih (fun x hx => ha x (by simp [hx]))]

theorem dpOk_of_digits : ∀ {l : List Char}, (∀ c ∈ l, c.isDigit = true) → dpOk l = true := by
  intro l
  induction l with
  | nil => intro _; rfl
  | cons c r ih =>
      intro h
      unfold dpOk
      rw [if_neg ?_]
      · exact ih fun x hx => h x (by simp [hx])
      · intro hc
        exact absurd (hc ▸ h c (by simp)) (by decide)

theorem digit_ne_plus {c : Char} (h : c.isDigit = true) : c ≠ '+' :=
  fun hc => absurd (hc ▸ h) (by decide)

theorem digit_ne_minus {c : Char} (h : c.isDigit = true) : c ≠ '-' :=
  fun hc => absurd (hc ▸ h) (by decide)

theorem pyFloat_digits00 {dsl : List Char} (hne : dsl ≠ [])
    (hdig : ∀ c ∈ dsl, c.isDigit = true) :
    ∃ d : Dec, pyFloat (dsl ++ ['.', '0', '0']) = some d ∧ d.toQ = valueDU dsl := by
  obtain ⟨hd, tl, rfl⟩ : ∃ hd tl, dsl = hd :: tl := by
    cases dsl with
    | nil => exact absurd rfl hne
    | cons hd tl => exact ⟨hd, tl, rfl⟩
  have hh : hd.isDigit = true := hdig hd (by simp)
  have hsign : pySign ((hd :: tl) ++ ['.', '0', '0']) = (false, (hd :: tl) ++ ['.', '0', '0']) := by
    show pySign (hd :: (tl ++ ['.', '0', '0'])) = _
    simp only [pySign]
    rw [if_neg (digit_ne_plus hh), if_neg (digit_ne_minus hh)]
    rfl
  have htake : takeDU ((hd :: tl) ++ ['.', '0', '0']) = (hd :: tl, ['.', '0', '0']) :=
    takeDU_append (fun c hc => by rw [hdig c hc]; rfl) (by decide) _
  have hvdp : validDP (hd :: tl) = true := by
    unfold validDP
    simp only [Bool.and_eq_true]
    exact ⟨hh, dpOk_of_digits hdig⟩
  refine ⟨⟨(valueDU (hd :: tl) : ℤ) * (pow10 (digitCount ['0', '0']) : ℤ)
      + (valueDU ['0', '0'] : ℤ), digitCount ['0', '0']⟩, ?_, ?_⟩
  · simp only [pyFloat, hsign, htake,
      show takeDU ['0', '0'] = (['0', '0'], []) from rfl,
      show validDP ['0', '0'] = true from rfl, hvdp,
      List.isEmpty_cons, Bool.false_and, Bool.false_or, Bool.or_false, Bool.not_true,
      Bool.false_eq_true, if_false, Bool.or_self]
    rfl
  · unfold Dec.toQ
    simp only
    rw [show valueDU ['0', '0'] = 0 from rfl]
    push_cast
    have hp2 : (pow10 (digitCount ['0', '0']) : ℚ) ≠ 0 := ne_of_gt (pow10_rat_pos _)
    field_simp

/-- C6.  `parse_currency` round trip: for every natural `x` rendered as
`"$" + thousands-grouped(x) + ".00"`, parsing recovers exactly `x` (the
decimal model is exact, hence well within floating-point tolerance);
`parse_currency` returns `None` on the empty string and on `"abc"`
(non-numeric remainder after stripping); and it is a total function — on any
string it either returns a value or returns `None` (the `ValueError` of
`float` is caught), never propagating an exception. -/
theorem c6_parse_currency :
    (∀ n : ℕ, ∃ d : Dec, parse_currency (formatUSD n) = some d ∧ d.toQ = n) ∧
    parse_currency "" = Option.none ∧
    parse_currency "abc" = Option.none ∧
    (∀ s : String, parse_currency s = Option.none ∨ ∃ d, parse_currency s = some d) := by
  refine ⟨?_, by decide, by decide, ?_⟩
  · intro n
    have hne : formatUSD n ≠ "" := strMk_ne_empty (by simp)
    unfold parse_currency
    rw [if_neg hne]
    have hstrip : (formatUSD n).data.filter (fun c => !isCurrencyStrip c)
        = natDigits n ++ ['.', '0', '0'] := by
      show ('$' :: (thousandsGrouped n ++ ['.', '0', '0'])).filter
          (fun c => !isCurrencyStrip c) = _
      rw [List.filter_cons]
      rw [show (!isCurrencyStrip '$') = false from rfl]
      simp only [Bool.false_eq_true, if_false]
      rw [List.filter_append]
      congr 1
      · unfold thousandsGrouped
        rw [List.filter_reverse, filter_groupRev _ (by rfl), ← List.filter_reverse,
            List.reverse_reverse]
        rw [List.filter_eq_self.2]
        intro c hc
        rw [digit_not_strip (natDigits_all_digits n c hc)]
        rfl
    rw [hstrip]
    obtain ⟨d, hd, hdq⟩ := pyFloat_digits00 (natDigits_ne_nil n) (natDigits_all_digits n)
    exact ⟨d, hd, by rw [hdq, valueDU_natDigits]⟩
  · intro s
    cases h : parse_currency s with
    | none => exact Or.inl rfl
    | some d => exact Or.inr ⟨d, rfl⟩

/-! ## Claim C7: `parse_date` on ISO input and the month-first tie-break -/

/-- C7.  `parse_date` is idempotent on the ISO example
(`"2024-03-15" ↦ "2024-03-15"`), resolves `"03/04/2024"` to March 4th, and
in general, for every input that parses under both `%m/%d/%Y` (month-first)
and `%d/%m/%Y` (day-first), the month-first reading wins because it comes
first in the format list. -/
theorem c7_parse_date :
    parse_date "2024-03-15" = some "2024-03-15" ∧
    parse_date "03/04/2024" = some "2024-03-04" ∧
    (∀ (s : String) (r1 r2 : ℕ × ℕ × ℕ),
      strptimeF fmtMDY (pyStripL s.data) = some r1 →
      strptimeF fmtDMY (pyStripL s.data) = some r2 →
      parse_date s = some (isoFmt r1.1 r1.2.1 r1.2.2)) := by
  refine ⟨by decide, by decide, ?_⟩
  intro s r1 r2 h1 _
  by_cases hs : s = ""
  · subst hs
    have h0 : strptimeF fmtMDY (pyStripL ("" : String).data) = Option.none := by decide
    rw [h0] at h1
    cases h1
  · unfold parse_date
    rw [if_neg hs]
    have hfs : firstSome dateFormats (fun f => strptimeF f (pyStripL s.data)) = some r1 := by
      rw [show dateFormats = fmtMDY ::
          [fmtDMY, fmtYMD, fmtYMDs, fmtMDYd, fmtDMYd, fmtBdY, fmtbdY, fmtdBY, fmtdbY,
           fmtMDy, fmtDMy] from rfl, firstSome]
      simp only [h1]
    rw [hfs]
    rfl

/-- Witness for C7's tie-break clause at the ambiguous input `03/04/2024`,
which parses as April 3rd day-first but March 4th month-first. -/
theorem c7_parse_date_witness :
    parse_date "03/04/2024" = some (isoFmt 2024 3 4) :=
  c7_parse_date.2.2 "03/04/2024" (2024, 3, 4) (2024, 4, 3) (by decide) (by decide)

/-! ## Claim C9: the `Total` / `Tax (8.5%)` scenario -/

/-- C9, evaluated at the scenario input.  On a text containing the lines
`Total: $2,170.00` and `Tax (8.5%): $170.00` (and no key-value pairs), the
amount extractor does select the larger total figure, 2170.00 — but
`extract_tax_amount` returns `None`, not 170.00: its pattern
`tax[:\s]+\$?...` cannot cross the `(8.5%)` between `Tax` and the colon, so
the rule-based record carries no tax amount.  This contradicts the
specification and the repository's own test (`test_local.py` asserts
`tax_amount == 170.0` on exactly such a line), so the claim is recorded as a
code bug rather than amended. -/
theorem c9_tax_divergence :
    (∃ d : Dec, extract_amount "Total: $2,170.00\nTax (8.5%): $170.00" [] = some d ∧
      d.toQ = 2170) ∧
    extract_tax_amount "Total: $2,170.00\nTax (8.5%): $170.00" = Option.none ∧
    dictGet (extract_with_rules "Total: $2,170.00\nTax (8.5%): $170.00" []) "tax_amount"
      = some .none ∧
    extract_tax_amount "Tax: $170.00" = some ⟨17000, 2⟩ := by
  refine ⟨⟨⟨217000, 2⟩, by decide, ?_⟩, by decide, by decide, by decide⟩
  unfold Dec.toQ
  norm_num [pow10]
